import Mathlib

/-!
# Verification of the composite workflow run form
(`static/scripts/mvc/tool/tool-form-composite.js`)

This file is a shallow embedding of the workflow parameter binding and
submission pipeline of the composite tool form.  The embedding follows the
source: `initialize` (per-step normalization, the placeholder scan that
builds the workflow-parameter registry, the parameter-form change handler,
creation of the optional history form), `_execute` (value extraction,
validation, request assembly, response handling) and `_enabled` (the
enable/disable routine for the execute button, the history form and the
step forms).

External collaborator modules that are not part of the available sources
(`utils/utils`, `mvc/form/form-view`, `mvc/form/form-data`, the transport
layer behind `utils.request`) are modelled from the specification; each such
definition carries a doc comment starting with "Modelled from the spec:".
-/

namespace ToolFormComposite

/-! ## JavaScript value primitives

Step input values in the source are JavaScript values: they may be `null`,
a string, or the `{__class__: "RuntimeValue"}` sentinel object.  The source
applies JavaScript truthiness (`a.value && ...`), stringification
(`String(a.value)`) and `String.prototype.substring` to them, so those
operations are embedded explicitly. -/

inductive JVal where
  | null
  | str (s : String)
  | runtime
  deriving DecidableEq, Repr

/-- JavaScript truthiness of an embedded value: `null` is falsy, a string is
truthy iff non-empty, the `RuntimeValue` sentinel object is truthy. -/
def jsTruthy : JVal → Bool
  | .null => false
  | .str s => s ≠ ""
  | .runtime => true

/-- `String(v)` for an embedded value: `null` stringifies to `"null"`, a plain
object to `"[object Object]"`. -/
def jsString : JVal → String
  | .null => "null"
  | .str s => s
  | .runtime => "[object Object]"

/-- `s.substring(i, j)` of JavaScript: both indices are clamped to
`[0, s.length]` and swapped when out of order. -/
def jsSubstring (s : String) (i j : Nat) : String :=
  let n := s.length
  let a := min (min i j) n
  let b := min (max i j) n
  ((s.toList.drop a).take (b - a)).asString

/-- Modelled from the spec: `utils.sanitize` (module `utils/utils` is not among
the available sources).  The spec only says that extracted names and pushed
values are "sanitized", so sanitization is modelled as the identity on
strings. -/
def sanitize (s : String) : String := s

/-! ## Data model -/

/-- One incoming connection recorded in a step's `input_connections_by_name`
entry: the upstream output name and the upstream step's `order_index`. -/
structure Connection where
  output_name : String
  order_index : Nat
  deriving DecidableEq, Repr

/-- A step input specification.  `options` is the declared option set
(`none` embeds JavaScript `null`). -/
structure InputSpec where
  id : String
  type : String
  value : JVal
  options : Option (List String) := none
  optional : Bool := false
  is_workflow : Bool := false
  collapsible : Bool := false
  collapsible_value : JVal := .null
  collapsible_preview : Bool := false
  help : String := ""
  ignore : String := ""
  data_ref : Option String := none
  deriving DecidableEq, Repr

/-- One workflow step of the descriptor handed to `initialize`. -/
structure Step where
  step_id : Nat
  step_type : String
  order_index : Nat
  name : String := ""
  inputs : List InputSpec
  input_connections_by_name : List (String × List Connection) := []
  deriving DecidableEq, Repr

/-- The workflow descriptor (`options` of `initialize`). -/
structure Workflow where
  id : String
  name : String := ""
  history_id : JVal := .null
  steps : List Step

/-- `-1 != ["data_input","data_collection_input"].indexOf(step_type)`. -/
def isDataStepType (t : String) : Bool :=
  t == "data_input" || t == "data_collection_input"

/-! ## Input normalization (the `tool` branch of `initialize`)

The source normalizes the inputs of every `tool`-type step in three passes:
the `deepeach` visitor, the `matchIds` connection rewrite, and the
`matchContext` `data_ref` recomputation. -/

/-- The `deepeach` visitor of `initialize`: guarded by `a.type`, it marks
option-less inputs workflow-bindable, clears `RuntimeValue` sentinels, and
otherwise flags non-dataset non-placeholder scalar values as collapsible. -/
def deepeachVisit (a : InputSpec) : InputSpec :=
  if a.type = "" then a
  else
    let a := if a.options = some [] then { a with is_workflow := true } else a
    if jsTruthy a.value ∧ a.value = .runtime then { a with value := .null }
    else if ¬ (a.type = "data" ∨ a.type = "data_collection")
        ∧ (jsString a.value).take 1 ≠ "$" then
      { a with collapsible := true, collapsible_value := a.value,
               collapsible_preview := true }
    else a

/-- The provenance help text built by the `matchIds` callback:
`_.reduce(connections, ..., "")` producing a comma-joined list of
`Output dataset '<name>' from step <order_index>`. -/
def connectionHelp (conns : List Connection) : String :=
  conns.foldl (fun acc c =>
    (if acc ≠ "" then acc ++ ", " else acc) ++
      "Output dataset '" ++ c.output_name ++ "' from step " ++
        toString c.order_index) ""

/-- Modelled from the spec: `form-data.matchIds` (module `mvc/form/form-data`
is not among the available sources) pairs every input that has an entry in
`input_connections_by_name` with its connection list; the connection map is
keyed by the input's name, modelled here by the input's `id`.  The rewrite
applied to each matched input is the callback from the source: type becomes
`"hidden"`, `value` and `ignore` become `""`, `options` becomes null and
`help` becomes the provenance text. -/
def matchIdsRewrite (connMap : List (String × List Connection))
    (a : InputSpec) : InputSpec :=
  match connMap.lookup a.id with
  | some conns =>
      { a with type := "hidden", value := .str "", ignore := "",
               options := none, help := connectionHelp conns }
  | none => a

/-- Modelled from the spec: `form-data.matchContext` (not among the available
sources) visits every input carrying a `data_ref` attribute together with the
input it references; the callback from the source then recomputes
`is_workflow` as `!b.options || !b.options[a.value]` (the referenced option
set is missing or does not contain the field's current value). -/
def matchContextRewrite (all : List InputSpec) (a : InputSpec) : InputSpec :=
  match a.data_ref with
  | none => a
  | some r =>
    match all.find? (fun b => b.id == r) with
    | none => a
    | some b =>
        { a with is_workflow :=
            b.options.isNone || ! ((b.options.getD []).contains (jsString a.value)) }

/-- The three normalization passes applied to a `tool` step's inputs, in
source order. -/
def normalizeToolInputs (s : Step) : List InputSpec :=
  let l2 := (s.inputs.map deepeachVisit).map
    (matchIdsRewrite s.input_connections_by_name)
  l2.map (matchContextRewrite l2)

/-- Per-step normalization: only `tool` steps have their inputs rewritten. -/
def normalizeStep (s : Step) : Step :=
  if s.step_type = "tool" then { s with inputs := normalizeToolInputs s } else s

def normalizeSteps (steps : List Step) : List Step := steps.map normalizeStep

/-! ## Workflow parameter discovery (the placeholder scan of `initialize`)

After all steps are stored, the source scans every stored step's inputs:
an input whose stringified value starts with `"$"` is a placeholder target.
Its parameter name is `sanitize(value.substring(2, value.length - 1))`; the
target registry `h` maps each name to the list of bound field handles, the
parameter registry `i` maps each name to its `WorkflowParameter`, and the
counter `j` advances once per newly created parameter, driving the rotating
`hsl( 100*j, 70%, 30% )` colour. -/

/-- A handle to one rendered field: the owning step's `step_id` and the
input's `id` (the key of `field_list` / `element_list`). -/
structure FieldRef where
  step_id : Nat
  input_id : String
  deriving DecidableEq, Repr

/-- The synthetic workflow-parameter entry created at first sighting:
`{type: b.type, is_workflow: b.options, label: l, name: l, color: ...}`;
`is_workflow` is the JavaScript truthiness of the target's `options`. -/
structure WorkflowParameter where
  type : String
  is_workflow : Bool
  label : String
  name : String
  color : String
  deriving DecidableEq, Repr

/-- The numeric hue argument of the `n`-th discovered parameter's colour:
`100 * n` (the source writes `100*++j`). -/
def paramHueArg (n : Nat) : Nat := 100 * n

/-- The colour string assigned to the `n`-th discovered parameter:
`"hsl( " + 100*j + ", 70%, 30% )"`. -/
def hslColor (n : Nat) : String :=
  "hsl( " ++ toString (paramHueArg n) ++ ", 70%, 30% )"

/-- Modelled from the spec: the rendering collaborator receives the colour as
a CSS `hsl(...)` string, whose first argument is a hue angle in degrees and
is therefore interpreted modulo 360. -/
def cssHueAngle (deg : Nat) : Nat := deg % 360

/-- The parameter name extracted from a placeholder-valued field:
`sanitize(d.substring(2, d.length - 1))`. -/
def placeholderName (d : String) : String :=
  sanitize (jsSubstring d 2 (d.length - 1))

/-- `h[l] = h[l] || [], h[l].push(e)`: append the field handle to the name's
target list, creating the entry on first sighting. -/
def pushTarget (h : List (String × List FieldRef)) (l : String) (r : FieldRef) :
    List (String × List FieldRef) :=
  if (h.lookup l).isSome then
    h.map (fun p => if p.1 = l then (p.1, p.2 ++ [r]) else p)
  else h ++ [(l, [r])]

/-- The mutable state of the placeholder scan: the target registry `h`, the
parameter registry `i` (kept in discovery order), the colour counter `j`,
the current field values (the scan performs `e.value(l)` on each target), and
the elements disabled by `f.disable(true)`. -/
structure ScanState where
  targets : List (String × List FieldRef)
  params : List WorkflowParameter
  j : Nat
  fields : FieldRef → String
  disabledElems : List FieldRef

/-- Initial field values: each rendered field starts at the (stringified)
value of its normalized input. -/
def initialFields (steps : List Step) : FieldRef → String :=
  fun r =>
    match steps.find? (fun s => s.step_id == r.step_id) with
    | some s =>
      match s.inputs.find? (fun i => i.id == r.input_id) with
      | some i => jsString i.value
      | none => ""
    | none => ""

/-- One iteration of the scan body over a single input of step `sid`. -/
def scanInput (sid : Nat) (st : ScanState) (inp : InputSpec) : ScanState :=
  let d := jsString inp.value
  if (d.take 1 = "$") then
    let l := placeholderName d
    let r : FieldRef := ⟨sid, inp.id⟩
    let targets := pushTarget st.targets l r
    let fields := fun x => if x = r then l else st.fields x
    let disabled := st.disabledElems ++ [r]
    if (st.params.find? (fun p => p.name == l)).isSome then
      { st with targets := targets, fields := fields, disabledElems := disabled }
    else
      { targets := targets,
        params := st.params ++
          [⟨inp.type, inp.options.isSome, l, l, hslColor (st.j + 1)⟩],
        j := st.j + 1,
        fields := fields,
        disabledElems := disabled }
  else st

def initialScanState (steps : List Step) : ScanState :=
  ⟨[], [], 0, initialFields steps, []⟩

def scanStep (st : ScanState) (s : Step) : ScanState :=
  s.inputs.foldl (scanInput s.step_id) st

/-- The full placeholder scan over the stored (normalized) steps. -/
def scanSteps (steps : List Step) : ScanState :=
  steps.foldl scanStep (initialScanState steps)

/-- The scan as run by `initialize`: over the normalized steps. -/
def buildScan (w : Workflow) : ScanState :=
  scanSteps (normalizeSteps w.steps)

/-- The discovered `WorkflowParameter` registry of a form build. -/
def discoveredParams (w : Workflow) : List WorkflowParameter :=
  (buildScan w).params

/-- The discovered target registry of a form build. -/
def discoveredTargets (w : Workflow) : List (String × List FieldRef) :=
  (buildScan w).targets

/-- The target list recorded for one parameter name. -/
def targetList (w : Workflow) (c : String) : List FieldRef :=
  ((discoveredTargets w).lookup c).getD []

/-- The value pushed to a target on change: `a.sanitize(b) || c`, the
sanitized new value with the parameter's own name as fallback when empty. -/
def propagateValue (c v : String) : String :=
  if sanitize v = "" then c else sanitize v

/-- The parameter form's `onchange` handler: for every entry `(c, b)` of the
form's current value set, push `sanitize(b) || c` into every field recorded
under `h[c]`. -/
def propagate (h : List (String × List FieldRef))
    (values : List (String × String)) (fields : FieldRef → String) :
    FieldRef → String :=
  values.foldl (fun fs cv =>
    ((h.lookup cv.1).getD []).foldl
      (fun fs r => fun x => if x = r then propagateValue cv.1 cv.2 else fs x)
      fs) fields

/-- `this.history_form = null; options.history_id || (this.history_form =
new Form(...))`: the history form exists iff `history_id` is falsy. -/
def historyFormCreated (w : Workflow) : Bool := ! jsTruthy w.history_id

/-! ## Submission (`_execute`)

`_execute` walks every stored form, extracts its current values
(`form.data.create()`), resets transient UI state, and classifies each value:
for `data_input` / `data_collection_input` steps a batch value with at least
one element contributes `inputs[order_index]`, anything else marks the field
invalid (highlighted only while the validity flag is still set); for other
steps a value is rejected only when the input is neither `optional` nor
`is_workflow` and the value is `null`, and every accepted value is written to
`parameters[step_id][key]`. -/

/-- A value extracted from a form by `form.data.create()`: JavaScript `null`,
a batch/dataset object `{values: [...]}` or a plain scalar. -/
inductive FormValue where
  | null
  | batch (values : List String)
  | scalar (s : String)
  deriving DecidableEq, Repr

/-- The current extracted value of every rendered field at execute time. -/
abbrev FieldVals := FieldRef → FormValue

/-- The tool-branch acceptance test `n.optional || n.is_workflow || null != l`. -/
def toolEntryValid (n : InputSpec) (l : FormValue) : Bool :=
  n.optional || n.is_workflow || ! (l == FormValue.null)

/-- The data-branch acceptance test `l && l.values && l.values.length > 0`. -/
def dataEntryValid (l : FormValue) : Bool :=
  match l with
  | .batch (_ :: _) => true
  | _ => false

/-- Assignment to a JavaScript object property: overwrite the key's entry if
present, append it otherwise. -/
def setAssoc {α β : Type} [DecidableEq α] (m : List (α × β)) (k : α) (v : β) :
    List (α × β) :=
  if (m.lookup k).isSome then
    m.map (fun p => if p.1 = k then (k, v) else p)
  else m ++ [(k, v)]

/-- `c.parameters[h][k] = l`: write one accepted tool value into the step's
sub-map. -/
def paramWrite (m : List (Nat × List (String × FormValue))) (h : Nat)
    (k : String) (v : FormValue) : List (Nat × List (String × FormValue)) :=
  setAssoc m h (setAssoc ((m.lookup h).getD []) k v)

/-- The accumulating state of `_execute`'s extraction loop: the request under
construction (`inputs` and `parameters`), the validity flag `d`, and the
fields highlighted so far. -/
structure ExecState where
  inputs : List (Nat × String)
  parameters : List (Nat × List (String × FormValue))
  valid : Bool
  highlights : List FieldRef
  deriving DecidableEq, Repr

/-- The body of the per-input loop of `_execute` for one step. -/
def execInput (isData : Bool) (sid oidx : Nat) (vals : FieldVals)
    (st : ExecState) (n : InputSpec) : ExecState :=
  let l := vals ⟨sid, n.id⟩
  if isData then
    match l with
    | .batch (x :: _) => { st with inputs := setAssoc st.inputs oidx x }
    | _ =>
      if st.valid then
        { st with highlights := st.highlights ++ [⟨sid, n.id⟩], valid := false }
      else st
  else
    if toolEntryValid n l then
      { st with parameters := paramWrite st.parameters sid n.id l }
    else
      { st with highlights := st.highlights ++ [⟨sid, n.id⟩], valid := false }

/-- Processing of one step's form by `_execute`: `c.parameters[step_id] = {}`
(for every step, whatever its type), then the per-input loop. -/
def execStep (vals : FieldVals) (st : ExecState) (s : Step) : ExecState :=
  let st := { st with parameters := setAssoc st.parameters s.step_id [] }
  s.inputs.foldl
    (execInput (isDataStepType s.step_type) s.step_id s.order_index vals) st

def execFold (vals : FieldVals) (steps : List Step) (st : ExecState) :
    ExecState :=
  steps.foldl (execStep vals) st

/-- The whole extraction/validation pass of `_execute` over the stored
(normalized) steps. -/
def execValidate (steps : List Step) (vals : FieldVals) : ExecState :=
  execFold vals steps ⟨[], [], true, []⟩

/-- `_execute` as invoked on the build of workflow `w`. -/
def execRun (w : Workflow) (vals : FieldVals) : ExecState :=
  execValidate (normalizeSteps w.steps) vals

/-! ## Enable/disable (`_enabled`) and the submission outcome

`_enabled(a)` first waits/unwaits the execute button, then unconditionally
dereferences `this.history_form.portlet` — a `TypeError` when the history
form was never created — and only then walks the step forms.  The embedded
`UIState` records the button, the history portlet and the per-step portlet
enabled flags; `crashed` records that the `TypeError` was raised, in which
case the step-form loop never runs. -/

structure UIState where
  btnEnabled : Bool
  historyEnabled : Bool
  formsEnabled : Nat → Bool
  crashed : Bool

/-- The `_enabled(a)` routine: button first, then the history portlet
(raising a `TypeError` when the history form is `null`), then every step
form's portlet. -/
def setEnabledRun (hasHistory : Bool) (a : Bool) (ui : UIState) : UIState :=
  let ui := { ui with btnEnabled := a }
  if hasHistory then
    { ui with historyEnabled := a, formsEnabled := fun _ => a }
  else
    { ui with crashed := true }

/-- What `_execute` does after the extraction loop: on validation failure it
calls `_enabled(true)` immediately; on success it calls `_enabled(false)`
before submitting. -/
def executeUI (hasHistory : Bool) (es : ExecState) (ui : UIState) : UIState :=
  if es.valid then setEnabledRun hasHistory false ui
  else setEnabledRun hasHistory true ui

/-- Whether `_execute` reaches the POST: a validation failure is rejected
locally; with a passing validation the request is sent unless `_enabled(false)`
already raised the history-form `TypeError`. -/
inductive ExecOutcome where
  | rejected
  | crashedBeforeRequest
  | requested
  deriving DecidableEq, Repr

def executeOutcome (hasHistory : Bool) (es : ExecState) : ExecOutcome :=
  if es.valid then
    (if hasHistory then .requested else .crashedBeforeRequest)
  else .rejected

/-- What the `error` callback of the POST does.  `referenceError` embeds the
evaluation of an unbound identifier: with truthy `err_data` the callback
evaluates `form.data.matchResponse(...)` although no variable `form` is in
scope anywhere in the module, and with no `err_msg` the modal body evaluates
`ToolTemplate.error(options.job_def)` although neither `ToolTemplate` nor
`options` is in scope. -/
inductive ErrorHandlerResult where
  | referenceError
  | modalNotice (body : String)
  deriving DecidableEq, Repr

/-- The `error` callback of the POST in `_execute`, on a response carrying
optional `err_data` (a field-keyed error map) and optional `err_msg`. -/
def errorHandler (err_data : Option (List (String × String)))
    (err_msg : Option String) : ErrorHandlerResult :=
  match err_data with
  | some _ => .referenceError
  | none =>
    match err_msg with
    | some m => .modalNotice m
    | none => .referenceError

/-- Modelled from the spec: the transport collaborator behind `utils.request`
(module `utils/utils` is not among the available sources) invokes the
`complete` callback after `success` or `error` in every terminal case
("In all terminal cases (success or failure) the UI is finally re-enabled");
the `complete` callback of `_execute` is `b._enabled(true)`. -/
def completeReenable (hasHistory : Bool) (ui : UIState) : UIState :=
  setEnabledRun hasHistory true ui

/-! ## Characterization of the placeholder scan

The scan visits inputs in step order; the pair of a target's field handle and
its extracted parameter name is a "dollar entry".  The registries built by the
scan are characterized below in terms of the dollar entries. -/

/-- The recognizer applied by the scan to one input: an input whose
stringified value starts with a dollar sign yields the pair of its field
handle and its extracted parameter name. -/
def dollarEntry (sid : Nat) (i : InputSpec) : Option (FieldRef × String) :=
  if (jsString i.value).take 1 = "$" then
    some (⟨sid, i.id⟩, placeholderName (jsString i.value))
  else none

def stepDollarEntries (s : Step) : List (FieldRef × String) :=
  s.inputs.filterMap (dollarEntry s.step_id)

def dollarEntries (steps : List Step) : List (FieldRef × String) :=
  (steps.map stepDollarEntries).flatten

/-- The field handles bound to some parameter during the scan. -/
def dollarRefs (steps : List Step) : List FieldRef :=
  (dollarEntries steps).map Prod.fst

/-- The extracted parameter names, with multiplicity, in discovery order. -/
def extractedNames (steps : List Step) : List String :=
  (dollarEntries steps).map Prod.snd

/-- The target registry as a fold of `pushTarget` over the dollar entries. -/
def targetsSpecFold (entries : List (FieldRef × String))
    (h0 : List (String × List FieldRef)) : List (String × List FieldRef) :=
  entries.foldl (fun h e => pushTarget h e.2 e.1) h0

/-- First-occurrence accumulation of parameter names. -/
def pushName (ns : List String) (n : String) : List String :=
  if n ∈ ns then ns else ns ++ [n]

/-- The scan invariant driving colour assignment: the counter equals the
number of discovered parameters, and the k-th discovered parameter carries
the colour of rotation step k+1. -/
def ColorInv (st : ScanState) : Prop :=
  st.j = st.params.length ∧
    st.params.map (fun p => p.color) =
      (List.range st.params.length).map (fun k => hslColor (k + 1))

/-- The composite rewrite applied to every input of a tool step. -/
def toolInputRewrite (s : Step) (i : InputSpec) : InputSpec :=
  matchContextRewrite
    ((s.inputs.map deepeachVisit).map (matchIdsRewrite s.input_connections_by_name))
    (matchIdsRewrite s.input_connections_by_name (deepeachVisit i))

/-- Whether one extracted entry passes the classification of `_execute`. -/
def entryOkAt (vals : FieldVals) (s : Step) (n : InputSpec) : Bool :=
  if isDataStepType s.step_type then dataEntryValid (vals ⟨s.step_id, n.id⟩)
  else toolEntryValid n (vals ⟨s.step_id, n.id⟩)

/-! ## Concrete instances used by counterexamples and witnesses -/

/-- The placeholder recognizer exactly as the specification words it: a
leading dollar sign, a name, and a trailing dollar sign; the name between the
two delimiters is sanitized.  Stated only to be compared with what the source
computes. -/
def specPlaceholderName (s : String) : Option String :=
  if 3 ≤ s.length ∧ s.take 1 = "$" ∧ s.takeRight 1 = "$" then
    some (sanitize (jsSubstring s 1 (s.length - 1)))
  else none

def exWP : Workflow :=
  { id := "w1",
    steps := [
      { step_id := 1, step_type := "tool", order_index := 0,
        inputs := [{ id := "a", type := "text", value := .str "$color$" }] }] }

def exValsC2 : FieldVals :=
  fun r => if r = ⟨5, "d"⟩ then .batch ["hda1"] else .null

def exC2 : Workflow :=
  { id := "w2",
    steps := [
      { step_id := 5, step_type := "data_input", order_index := 0,
        inputs := [{ id := "d", type := "data", value := .null }] }] }

def exC2b : Workflow :=
  { id := "w2b",
    steps := [
      { step_id := 5, step_type := "data_input", order_index := 0,
        inputs := [{ id := "d", type := "data", value := .null }] },
      { step_id := 6, step_type := "tool", order_index := 1,
        inputs := [{ id := "t", type := "text", value := .str "hello",
                     optional := true }] }] }

def exC4 : Workflow :=
  { id := "w4",
    steps := [
      { step_id := 1, step_type := "tool", order_index := 0,
        inputs := [{ id := "t", type := "text", value := .null }] },
      { step_id := 2, step_type := "data_input", order_index := 1,
        inputs := [{ id := "d", type := "data", value := .null }] }] }

def exC6 : Workflow :=
  { id := "w6",
    steps := [
      { step_id := 1, step_type := "tool", order_index := 0,
        inputs := (List.range 19).map (fun k =>
          { id := "i" ++ toString k, type := "text",
            value := .str ("$\x7bp" ++ toString k ++ "\x7d") }) }] }

def exC3I : InputSpec := { id := "c", type := "data", value := .str "$x$" }

def exC3S : Step :=
  { step_id := 3, step_type := "tool", order_index := 0,
    inputs := [exC3I],
    input_connections_by_name := [("c", [⟨"out1", 0⟩, ⟨"out2", 1⟩])] }

def exC3W : Workflow := { id := "w3", steps := [exC3S] }

def exS5 : Step :=
  { step_id := 7, step_type := "tool", order_index := 0,
    inputs := [{ id := "ok", type := "text", value := .null },
               { id := "req", type := "text", value := .null }] }

def exVals5 : FieldVals :=
  fun r => if r = ⟨7, "ok"⟩ then .scalar "v" else .null

def uiAll : UIState := ⟨true, true, fun _ => true, false⟩

def exC10 : Workflow :=
  { id := "w10", history_id := .str "hist7",
    steps := [
      { step_id := 9, step_type := "data_input", order_index := 0,
        inputs := [{ id := "d", type := "data", value := .null }] }] }


theorem scanInput_targets (sid : Nat) (st : ScanState) (inp : InputSpec) :
    (scanInput sid st inp).targets =
      targetsSpecFold ((dollarEntry sid inp).toList) st.targets := by
  by_cases hd : (jsString inp.value).take 1 = "$"
  · by_cases hf : (st.params.find?
        (fun p => p.name == placeholderName (jsString inp.value))).isSome
    · simp [scanInput, dollarEntry, targetsSpecFold, hd, hf]
    · simp [scanInput, dollarEntry, targetsSpecFold, hd, hf]
  · simp [scanInput, dollarEntry, targetsSpecFold, hd]

theorem foldl_scanInput_targets (sid : Nat) (inputs : List InputSpec) :
    ∀ st : ScanState,
      (inputs.foldl (scanInput sid) st).targets =
        targetsSpecFold (inputs.filterMap (dollarEntry sid)) st.targets := by
  induction inputs with
  | nil => intro st; simp [targetsSpecFold]
  | cons i rest ih =>
    intro st
    rw [List.foldl_cons, ih, List.filterMap_cons]
    cases h : dollarEntry sid i with
    | none =>
      have := scanInput_targets sid st i
      rw [h] at this
      simp [targetsSpecFold] at this ⊢
      rw [this]
    | some e =>
      have := scanInput_targets sid st i
      rw [h] at this
      simp [targetsSpecFold] at this ⊢
      rw [this]

theorem scanSteps_targets (steps : List Step) :
    ∀ st : ScanState,
      (steps.foldl scanStep st).targets =
        targetsSpecFold (dollarEntries steps) st.targets := by
  induction steps with
  | nil => intro st; simp [dollarEntries, targetsSpecFold]
  | cons s rest ih =>
    intro st
    rw [List.foldl_cons, ih]
    show targetsSpecFold (dollarEntries rest) (scanStep st s).targets = _
    rw [show (scanStep st s).targets =
          targetsSpecFold (stepDollarEntries s) st.targets from
        foldl_scanInput_targets s.step_id s.inputs st]
    simp [dollarEntries, targetsSpecFold]

theorem lookup_map_pushLabel (l : String) (r : FieldRef) (c : String) :
    ∀ h : List (String × List FieldRef),
      ((h.map (fun p => if p.1 = l then (p.1, p.2 ++ [r]) else p)).lookup c) =
        (h.lookup c).map (fun v => if c = l then v ++ [r] else v) := by
  intro h
  induction h with
  | nil => simp
  | cons a t ih =>
    obtain ⟨a1, a2⟩ := a
    rw [List.map_cons]
    by_cases hal : a1 = l
    · subst hal
      rw [if_pos rfl]
      by_cases hca : c = a1
      · subst hca
        simp [List.lookup]
      · have hb : (c == a1) = false := by simp [hca]
        simp [List.lookup, hb, ih]
    · rw [if_neg hal]
      by_cases hca : c = a1
      · subst hca
        have hcl : ¬ c = l := hal
        simp [List.lookup, hcl]
      · have hb : (c == a1) = false := by simp [hca]
        simp [List.lookup, hb, ih]

theorem lookup_append_right_of_none {α β : Type} [DecidableEq α]
    (m t : List (α × β)) (c : α) (hm : m.lookup c = none) :
    (m ++ t).lookup c = t.lookup c := by
  induction m with
  | nil => simp
  | cons a m ih =>
    obtain ⟨a1, a2⟩ := a
    by_cases hca : c = a1
    · subst hca
      simp only [List.lookup, beq_self_eq_true] at hm
      exact absurd hm (by simp)
    · have hb : (c == a1) = false := by simp [hca]
      rw [List.cons_append]
      simp only [List.lookup, hb] at hm ⊢
      exact ih hm

theorem lookup_append_left_of_some {α β : Type} [DecidableEq α]
    (m t : List (α × β)) (c : α) (v : β) (hm : m.lookup c = some v) :
    (m ++ t).lookup c = some v := by
  induction m with
  | nil => simp [List.lookup] at hm
  | cons a m ih =>
    obtain ⟨a1, a2⟩ := a
    by_cases hca : c = a1
    · subst hca
      rw [List.cons_append]
      simp only [List.lookup, beq_self_eq_true] at hm ⊢
      exact hm
    · have hb : (c == a1) = false := by simp [hca]
      rw [List.cons_append]
      simp only [List.lookup, hb] at hm ⊢
      exact ih hm

/-- The effect of one `pushTarget` on the looked-up target list of any name. -/
theorem getD_lookup_pushTarget (h : List (String × List FieldRef))
    (l : String) (r : FieldRef) (c : String) :
    ((pushTarget h l r).lookup c).getD [] =
      ((h.lookup c).getD []) ++ (if c = l then [r] else []) := by
  unfold pushTarget
  by_cases hs : (h.lookup l).isSome
  · rw [if_pos hs, lookup_map_pushLabel]
    by_cases hcl : c = l
    · subst hcl
      obtain ⟨v, hv⟩ := Option.isSome_iff_exists.mp hs
      simp [hv]
    · simp [hcl]
  · rw [if_neg hs]
    by_cases hcl : c = l
    · subst hcl
      have hn : h.lookup c = none := Option.not_isSome_iff_eq_none.mp hs
      rw [lookup_append_right_of_none _ _ _ hn, hn]
      simp [List.lookup]
    · by_cases hn : h.lookup c = none
      · rw [lookup_append_right_of_none _ _ _ hn, hn]
        have : (c == l) = false := by simp [hcl]
        simp [List.lookup, this, hcl]
      · obtain ⟨v, hv⟩ := Option.ne_none_iff_exists'.mp hn
        have := lookup_append_left_of_some h [(l, [r])] c v hv
        simp [this, hv, hcl]

/-- The looked-up target list of a name after folding `pushTarget` over a
list of entries: the original list extended by the entries carrying that
name, in order. -/
theorem getD_lookup_targetsSpecFold (entries : List (FieldRef × String)) :
    ∀ (h0 : List (String × List FieldRef)) (c : String),
      ((targetsSpecFold entries h0).lookup c).getD [] =
        ((h0.lookup c).getD []) ++
          (entries.filter (fun e => e.2 = c)).map Prod.fst := by
  induction entries with
  | nil => intro h0 c; simp [targetsSpecFold]
  | cons e rest ih =>
    intro h0 c
    show ((targetsSpecFold rest (pushTarget h0 e.2 e.1)).lookup c).getD [] = _
    rw [ih, getD_lookup_pushTarget]
    by_cases hc : e.2 = c
    · simp [hc, List.filter_cons]
    · have : ¬ c = e.2 := fun hh => hc hh.symm
      simp [hc, this, List.filter_cons]

/-- The target list recorded for name c is exactly the list of scanned field
handles whose extracted name is c, in scan order. -/
theorem targetList_eq (w : Workflow) (c : String) :
    targetList w c =
      ((dollarEntries (normalizeSteps w.steps)).filter
        (fun e => e.2 = c)).map Prod.fst := by
  unfold targetList discoveredTargets buildScan scanSteps
  rw [scanSteps_targets]
  show ((targetsSpecFold _ (initialScanState _).targets).lookup c).getD [] = _
  rw [getD_lookup_targetsSpecFold]
  simp [initialScanState]

theorem find?_name_isSome (ps : List WorkflowParameter) (l : String) :
    (ps.find? (fun p => p.name == l)).isSome =
      decide (l ∈ ps.map (fun p => p.name)) := by
  induction ps with
  | nil => simp
  | cons p t ih =>
    by_cases hp : p.name = l
    · simp [List.find?, hp]
    · have hb : (p.name == l) = false := by simp [hp]
      have hb' : ¬ l = p.name := fun hh => hp hh.symm
      simp [List.find?, hb, ih, hb']

theorem scanInput_paramNames (sid : Nat) (st : ScanState) (inp : InputSpec) :
    (scanInput sid st inp).params.map (fun p => p.name) =
      ((dollarEntry sid inp).toList.map Prod.snd).foldl pushName
        (st.params.map (fun p => p.name)) := by
  by_cases hd : (jsString inp.value).take 1 = "$"
  · by_cases hm : placeholderName (jsString inp.value) ∈
        st.params.map (fun p => p.name)
    · have hf : (st.params.find?
          (fun p => p.name == placeholderName (jsString inp.value))).isSome := by
        rw [find?_name_isSome]
        exact decide_eq_true hm
      simp [scanInput, dollarEntry, pushName, hd, hf, hm]
    · have hf : ¬ (st.params.find?
          (fun p => p.name == placeholderName (jsString inp.value))).isSome := by
        rw [find?_name_isSome]
        simp [hm]
      simp [scanInput, dollarEntry, pushName, hd, hf, hm]
  · simp [scanInput, dollarEntry, hd]

theorem foldl_scanInput_paramNames (sid : Nat) (inputs : List InputSpec) :
    ∀ st : ScanState,
      ((inputs.foldl (scanInput sid) st).params.map (fun p => p.name)) =
        ((inputs.filterMap (dollarEntry sid)).map Prod.snd).foldl pushName
          (st.params.map (fun p => p.name)) := by
  induction inputs with
  | nil => intro st; simp
  | cons i rest ih =>
    intro st
    rw [List.foldl_cons, ih, List.filterMap_cons]
    have hh := scanInput_paramNames sid st i
    cases h : dollarEntry sid i with
    | none =>
      rw [h] at hh
      simp at hh
      simp [hh]
    | some e =>
      rw [h] at hh
      simp at hh
      simp [hh]

theorem scanSteps_paramNames (steps : List Step) :
    ∀ st : ScanState,
      ((steps.foldl scanStep st).params.map (fun p => p.name)) =
        (extractedNames steps).foldl pushName (st.params.map (fun p => p.name)) := by
  induction steps with
  | nil => intro st; simp [extractedNames, dollarEntries]
  | cons s rest ih =>
    intro st
    rw [List.foldl_cons, ih]
    have hh := foldl_scanInput_paramNames s.step_id s.inputs st
    show (extractedNames rest).foldl pushName ((scanStep st s).params.map _) = _
    rw [show (scanStep st s).params.map (fun p => p.name) =
          ((stepDollarEntries s).map Prod.snd).foldl pushName
            (st.params.map (fun p => p.name)) from hh]
    simp [extractedNames, dollarEntries, List.foldl_append]

theorem pushName_nodup (ns : List String) (n : String) (h : ns.Nodup) :
    (pushName ns n).Nodup := by
  unfold pushName
  by_cases hm : n ∈ ns
  · simpa [hm] using h
  · simp [hm, List.nodup_append, h]

theorem foldl_pushName_nodup (l : List String) :
    ∀ ns : List String, ns.Nodup → (l.foldl pushName ns).Nodup := by
  induction l with
  | nil => intro ns h; exact h
  | cons x rest ih => intro ns h; exact ih _ (pushName_nodup ns x h)

theorem mem_foldl_pushName (l : List String) :
    ∀ (ns : List String) (x : String),
      x ∈ l.foldl pushName ns ↔ x ∈ ns ∨ x ∈ l := by
  induction l with
  | nil => intro ns x; simp
  | cons y rest ih =>
    intro ns x
    rw [List.foldl_cons, ih]
    unfold pushName
    by_cases hy : y ∈ ns
    · simp [hy]
      constructor
      · rintro (h | h)
        · exact Or.inl h
        · exact Or.inr (Or.inr h)
      · rintro (h | h | h)
        · exact Or.inl h
        · exact Or.inl (h ▸ hy)
        · exact Or.inr h
    · simp [hy, or_assoc]

/-- The discovered parameter names are exactly the first occurrences of the
extracted names, without duplicates. -/
theorem discoveredParams_names (w : Workflow) :
    (discoveredParams w).map (fun p => p.name) =
      (extractedNames (normalizeSteps w.steps)).foldl pushName [] := by
  unfold discoveredParams buildScan scanSteps
  have := scanSteps_paramNames (normalizeSteps w.steps)
    (initialScanState (normalizeSteps w.steps))
  simpa [initialScanState] using this

theorem discoveredParams_names_nodup (w : Workflow) :
    ((discoveredParams w).map (fun p => p.name)).Nodup := by
  rw [discoveredParams_names]
  exact foldl_pushName_nodup _ [] List.nodup_nil

theorem mem_discoveredParams_names (w : Workflow) (n : String) :
    n ∈ (discoveredParams w).map (fun p => p.name) ↔
      n ∈ extractedNames (normalizeSteps w.steps) := by
  rw [discoveredParams_names, mem_foldl_pushName]
  simp


theorem scanInput_colorInv (sid : Nat) (st : ScanState) (inp : InputSpec)
    (h : ColorInv st) : ColorInv (scanInput sid st inp) := by
  obtain ⟨hj, hc⟩ := h
  by_cases hd : (jsString inp.value).take 1 = "$"
  · by_cases hf : (st.params.find?
        (fun p => p.name == placeholderName (jsString inp.value))).isSome
    · constructor <;> simp [scanInput, hd, hf, hj, hc]
    · constructor
      · simp [scanInput, hd, hf, hj]
      · simp only [scanInput, hd, if_true, hf, if_false]
        simp [List.range_succ, hj, hc]
  · constructor <;> simp [scanInput, hd, hj, hc]

theorem foldl_scanInput_colorInv (sid : Nat) (inputs : List InputSpec) :
    ∀ st : ScanState, ColorInv st →
      ColorInv (inputs.foldl (scanInput sid) st) := by
  induction inputs with
  | nil => intro st h; exact h
  | cons i rest ih => intro st h; exact ih _ (scanInput_colorInv sid st i h)

theorem scanSteps_colorInv (steps : List Step) :
    ∀ st : ScanState, ColorInv st → ColorInv (steps.foldl scanStep st) := by
  induction steps with
  | nil => intro st h; exact h
  | cons s rest ih =>
    intro st h
    exact ih _ (foldl_scanInput_colorInv s.step_id s.inputs st h)

/-- Colour assignment is determined by discovery order: the list of colours
of the discovered parameters is the rotation sequence in order. -/
theorem discoveredParams_colors (w : Workflow) :
    (discoveredParams w).map (fun p => p.color) =
      (List.range (discoveredParams w).length).map (fun k => hslColor (k + 1)) := by
  have := scanSteps_colorInv (normalizeSteps w.steps)
    (initialScanState (normalizeSteps w.steps)) (by constructor <;> simp [initialScanState])
  exact this.2

/-! ## Propagation lemmas -/

theorem foldl_setField (pv : String) (refs : List FieldRef) :
    ∀ (f : FieldRef → String) (x : FieldRef),
      (refs.foldl (fun fs r => fun y => if y = r then pv else fs y) f) x =
        if x ∈ refs then pv else f x := by
  induction refs with
  | nil => intro f x; simp
  | cons r rest ih =>
    intro f x
    rw [List.foldl_cons, ih]
    by_cases hx : x ∈ rest
    · simp [hx]
    · by_cases hr : x = r
      · simp [hx, hr]
      · simp [hx, hr]

theorem propagate_cons (h : List (String × List FieldRef))
    (cv : String × String) (rest : List (String × String))
    (f : FieldRef → String) :
    propagate h (cv :: rest) f =
      propagate h rest
        (fun y => if y ∈ (h.lookup cv.1).getD [] then propagateValue cv.1 cv.2
                  else f y) := by
  unfold propagate
  rw [List.foldl_cons]
  congr 1
  funext y
  rw [foldl_setField]

/-- A field that belongs to no pushed parameter's target list is untouched by
the change handler. -/
theorem propagate_untouched (h : List (String × List FieldRef))
    (values : List (String × String)) :
    ∀ (f : FieldRef → String) (x : FieldRef),
      (∀ cv ∈ values, x ∉ (h.lookup cv.1).getD []) →
      propagate h values f x = f x := by
  induction values with
  | nil => intro f x _; rfl
  | cons cv rest ih =>
    intro f x hx
    rw [propagate_cons, ih]
    · simp [hx cv (by simp)]
    · intro cv' hcv'
      exact hx cv' (List.mem_cons_of_mem _ hcv')

/-- A field recorded under a pushed parameter receives that parameter's value,
provided the parameter keys are distinct and no other pushed parameter also
records the field. -/
theorem propagate_target (h : List (String × List FieldRef))
    (values : List (String × String)) :
    ∀ (f : FieldRef → String) (cv : String × String) (x : FieldRef),
      (values.map Prod.fst).Nodup →
      cv ∈ values →
      x ∈ (h.lookup cv.1).getD [] →
      (∀ c, c ≠ cv.1 → x ∉ (h.lookup c).getD []) →
      propagate h values f x = propagateValue cv.1 cv.2 := by
  induction values with
  | nil => intro f cv x _ hmem; simp at hmem
  | cons cv' rest ih =>
    intro f cv x hnd hmem hx hother
    have hnd' : (rest.map Prod.fst).Nodup := by
      rw [List.map_cons] at hnd
      exact hnd.of_cons
    rcases List.mem_cons.mp hmem with hhd | htl
    · subst hhd
      rw [propagate_cons]
      have hrest : ∀ cv2 ∈ rest, x ∉ (h.lookup cv2.1).getD [] := by
        intro cv2 hcv2
        by_cases hc : cv2.1 = cv.1
        · exfalso
          rw [List.map_cons] at hnd
          exact (List.nodup_cons.mp hnd).1 (hc ▸ List.mem_map_of_mem Prod.fst hcv2)
        · exact hother cv2.1 hc
      rw [propagate_untouched h rest _ x hrest]
      simp [hx]
    · have hne : cv'.1 ≠ cv.1 := by
        intro hc
        rw [List.map_cons] at hnd
        exact (List.nodup_cons.mp hnd).1 (hc ▸ List.mem_map_of_mem Prod.fst htl)
      rw [propagate_cons]
      have hx' : x ∉ (h.lookup cv'.1).getD [] := hother cv'.1 hne
      have := ih (fun y => if y ∈ (h.lookup cv'.1).getD []
          then propagateValue cv'.1 cv'.2 else f y) cv x hnd' htl hx hother
      rw [this]

/-- Distinct parameter names record disjoint target lists, provided the
scanned field handles are pairwise distinct. -/
theorem targetList_disjoint (w : Workflow)
    (hnd : (dollarRefs (normalizeSteps w.steps)).Nodup)
    (c1 c2 : String) (hne : c1 ≠ c2) (r : FieldRef)
    (h1 : r ∈ targetList w c1) : r ∉ targetList w c2 := by
  intro h2
  rw [targetList_eq] at h1 h2
  obtain ⟨e1, he1, hre1⟩ := List.mem_map.mp h1
  obtain ⟨e2, he2, hre2⟩ := List.mem_map.mp h2
  have he1' := List.mem_filter.mp he1
  have he2' := List.mem_filter.mp he2
  have hc1 : e1.2 = c1 := by simpa using he1'.2
  have hc2 : e2.2 = c2 := by simpa using he2'.2
  have : e1 = e2 :=
    List.inj_on_of_nodup_map hnd he1'.1 he2'.1 (hre1.trans hre2.symm)
  exact hne (hc1 ▸ hc2 ▸ congrArg Prod.snd this)

/-! ## Normalization facts -/

theorem deepeachVisit_id (a : InputSpec) : (deepeachVisit a).id = a.id := by
  unfold deepeachVisit
  dsimp only
  split_ifs <;> rfl

theorem matchIdsRewrite_id (connMap : List (String × List Connection))
    (a : InputSpec) : (matchIdsRewrite connMap a).id = a.id := by
  unfold matchIdsRewrite
  cases connMap.lookup a.id <;> rfl

theorem matchContextRewrite_projs (all : List InputSpec) (a : InputSpec) :
    (matchContextRewrite all a).id = a.id ∧
    (matchContextRewrite all a).type = a.type ∧
    (matchContextRewrite all a).value = a.value ∧
    (matchContextRewrite all a).options = a.options ∧
    (matchContextRewrite all a).help = a.help := by
  unfold matchContextRewrite
  cases h : a.data_ref with
  | none => exact ⟨rfl, rfl, rfl, rfl, rfl⟩
  | some r =>
    dsimp only
    cases hf : all.find? (fun b => b.id == r) with
    | none => exact ⟨rfl, rfl, rfl, rfl, rfl⟩
    | some b => exact ⟨rfl, rfl, rfl, rfl, rfl⟩


theorem normalizeToolInputs_eq_map (s : Step) :
    normalizeToolInputs s = s.inputs.map (toolInputRewrite s) := by
  unfold normalizeToolInputs toolInputRewrite
  rw [List.map_map, List.map_map]
  rfl

theorem toolInputRewrite_id (s : Step) (i : InputSpec) :
    (toolInputRewrite s i).id = i.id := by
  unfold toolInputRewrite
  rw [(matchContextRewrite_projs _ _).1, matchIdsRewrite_id, deepeachVisit_id]

theorem normalizeStep_step_id (s : Step) :
    (normalizeStep s).step_id = s.step_id := by
  unfold normalizeStep; split_ifs <;> rfl

theorem normalizeStep_step_type (s : Step) :
    (normalizeStep s).step_type = s.step_type := by
  unfold normalizeStep; split_ifs <;> rfl

theorem normalizeStep_order_index (s : Step) :
    (normalizeStep s).order_index = s.order_index := by
  unfold normalizeStep; split_ifs <;> rfl

theorem normalizeStep_input_ids (s : Step) :
    (normalizeStep s).inputs.map (fun i => i.id) =
      s.inputs.map (fun i => i.id) := by
  unfold normalizeStep
  split_ifs with h
  · show (normalizeToolInputs s).map (fun i => i.id) = _
    rw [normalizeToolInputs_eq_map, List.map_map]
    exact List.map_congr_left (fun i _ => toolInputRewrite_id s i)
  · rfl

theorem normalizeSteps_step_ids (steps : List Step) :
    (normalizeSteps steps).map (fun s => s.step_id) =
      steps.map (fun s => s.step_id) := by
  unfold normalizeSteps
  rw [List.map_map]
  exact List.map_congr_left (fun s _ => normalizeStep_step_id s)

/-- The connected-input rewrite: with a connection entry present, the
normalized input is hidden, cleared and carries the provenance text. -/
theorem toolInputRewrite_connected (s : Step) (i : InputSpec)
    (conns : List Connection)
    (hc : s.input_connections_by_name.lookup i.id = some conns) :
    (toolInputRewrite s i).id = i.id ∧
    (toolInputRewrite s i).type = "hidden" ∧
    (toolInputRewrite s i).value = JVal.str "" ∧
    (toolInputRewrite s i).options = none ∧
    (toolInputRewrite s i).help = connectionHelp conns := by
  have hid : (deepeachVisit i).id = i.id := deepeachVisit_id i
  have hmi : matchIdsRewrite s.input_connections_by_name (deepeachVisit i) =
      { deepeachVisit i with
          type := "hidden", value := .str "", ignore := "",
          options := none, help := connectionHelp conns } := by
    unfold matchIdsRewrite
    rw [hid, hc]
    dsimp only
    rw [hid]
  obtain ⟨h1, h2, h3, h4, h5⟩ := matchContextRewrite_projs
    ((s.inputs.map deepeachVisit).map (matchIdsRewrite s.input_connections_by_name))
    (matchIdsRewrite s.input_connections_by_name (deepeachVisit i))
  unfold toolInputRewrite
  rw [h1, h2, h3, h4, h5, hmi]
  exact ⟨hid, rfl, rfl, rfl, rfl⟩

/-- Membership characterization of the scanned field handles. -/
theorem mem_dollarRefs (steps : List Step) (r : FieldRef) :
    r ∈ dollarRefs steps ↔
      ∃ s ∈ steps, ∃ i ∈ s.inputs,
        (jsString i.value).take 1 = "$" ∧ r = ⟨s.step_id, i.id⟩ := by
  unfold dollarRefs dollarEntries stepDollarEntries
  constructor
  · intro h
    obtain ⟨e, he, hre⟩ := List.mem_map.mp h
    obtain ⟨l, hl, hel⟩ := List.mem_flatten.mp he
    obtain ⟨s, hs, hls⟩ := List.mem_map.mp hl
    rw [← hls] at hel
    obtain ⟨i, hi, hie⟩ := List.mem_filterMap.mp hel
    unfold dollarEntry at hie
    by_cases hd : (jsString i.value).take 1 = "$"
    · rw [if_pos hd] at hie
      refine ⟨s, hs, i, hi, hd, ?_⟩
      rw [← hre, ← Option.some.inj hie]
    · rw [if_neg hd] at hie
      exact absurd hie (by simp)
  · rintro ⟨s, hs, i, hi, hd, rfl⟩
    refine List.mem_map.mpr ⟨(⟨s.step_id, i.id⟩, placeholderName (jsString i.value)), ?_, rfl⟩
    refine List.mem_flatten.mpr ⟨s.inputs.filterMap (dollarEntry s.step_id), ?_, ?_⟩
    · exact List.mem_map.mpr ⟨s, hs, rfl⟩
    · refine List.mem_filterMap.mpr ⟨i, hi, ?_⟩
      unfold dollarEntry
      rw [if_pos hd]

/-- A field handle inside some recorded target list was scanned as a
placeholder. -/
theorem mem_targetList_mem_dollarRefs (w : Workflow) (c : String) (r : FieldRef)
    (h : r ∈ targetList w c) : r ∈ dollarRefs (normalizeSteps w.steps) := by
  rw [targetList_eq] at h
  obtain ⟨e, he, hre⟩ := List.mem_map.mp h
  exact hre ▸ List.mem_map_of_mem Prod.fst (List.mem_filter.mp he).1

/-! ## Validation-loop lemmas -/


theorem execInput_valid_mono (b : Bool) (sid o : Nat) (vals : FieldVals)
    (st : ExecState) (n : InputSpec) (h : st.valid = false) :
    (execInput b sid o vals st n).valid = false := by
  unfold execInput
  by_cases hb : b
  · cases hv : vals ⟨sid, n.id⟩ with
    | batch l =>
      cases l with
      | nil => simp [hb, hv, h]
      | cons x xs => simp [hb, hv, h]
    | null => simp [hb, hv, h]
    | scalar s => simp [hb, hv, h]
  · by_cases ht : toolEntryValid n (vals ⟨sid, n.id⟩) <;> simp [hb, ht, h]

theorem foldl_execInput_valid_mono (b : Bool) (sid o : Nat) (vals : FieldVals)
    (inputs : List InputSpec) :
    ∀ st : ExecState, st.valid = false →
      (inputs.foldl (execInput b sid o vals) st).valid = false := by
  induction inputs with
  | nil => intro st h; exact h
  | cons n rest ih =>
    intro st h
    exact ih _ (execInput_valid_mono b sid o vals st n h)

theorem execStep_valid_mono (vals : FieldVals) (st : ExecState) (s : Step)
    (h : st.valid = false) : (execStep vals st s).valid = false := by
  unfold execStep
  exact foldl_execInput_valid_mono _ _ _ vals s.inputs _ h

theorem execFold_valid_mono (vals : FieldVals) (steps : List Step) :
    ∀ st : ExecState, st.valid = false →
      (execFold vals steps st).valid = false := by
  induction steps with
  | nil => intro st h; exact h
  | cons s rest ih =>
    intro st h
    exact ih _ (execStep_valid_mono vals st s h)

theorem execInput_highlights_ext (b : Bool) (sid o : Nat) (vals : FieldVals)
    (st : ExecState) (n : InputSpec) :
    ∃ t, (execInput b sid o vals st n).highlights = st.highlights ++ t := by
  unfold execInput
  by_cases hb : b
  · cases hv : vals ⟨sid, n.id⟩ with
    | batch l =>
      cases l with
      | nil =>
        by_cases hval : st.valid
        · exact ⟨[⟨sid, n.id⟩], by simp [hb, hv, hval]⟩
        · exact ⟨[], by simp [hb, hv, hval]⟩
      | cons x xs => exact ⟨[], by simp [hb, hv]⟩
    | null =>
      by_cases hval : st.valid
      · exact ⟨[⟨sid, n.id⟩], by simp [hb, hv, hval]⟩
      · exact ⟨[], by simp [hb, hv, hval]⟩
    | scalar s =>
      by_cases hval : st.valid
      · exact ⟨[⟨sid, n.id⟩], by simp [hb, hv, hval]⟩
      · exact ⟨[], by simp [hb, hv, hval]⟩
  · by_cases ht : toolEntryValid n (vals ⟨sid, n.id⟩)
    · exact ⟨[], by simp [hb, ht]⟩
    · exact ⟨[⟨sid, n.id⟩], by simp [hb, ht]⟩

theorem foldl_execInput_highlights_ext (b : Bool) (sid o : Nat)
    (vals : FieldVals) (inputs : List InputSpec) :
    ∀ st : ExecState,
      ∃ t, (inputs.foldl (execInput b sid o vals) st).highlights =
        st.highlights ++ t := by
  induction inputs with
  | nil => intro st; exact ⟨[], by simp⟩
  | cons n rest ih =>
    intro st
    obtain ⟨t1, h1⟩ := execInput_highlights_ext b sid o vals st n
    obtain ⟨t2, h2⟩ := ih (execInput b sid o vals st n)
    exact ⟨t1 ++ t2, by rw [List.foldl_cons, h2, h1, List.append_assoc]⟩

theorem execStep_highlights_ext (vals : FieldVals) (st : ExecState) (s : Step) :
    ∃ t, (execStep vals st s).highlights = st.highlights ++ t := by
  unfold execStep
  exact foldl_execInput_highlights_ext _ _ _ vals s.inputs _

theorem execFold_highlights_ext (vals : FieldVals) (steps : List Step) :
    ∀ st : ExecState,
      ∃ t, (execFold vals steps st).highlights = st.highlights ++ t := by
  induction steps with
  | nil => intro st; exact ⟨[], by simp [execFold]⟩
  | cons s rest ih =>
    intro st
    obtain ⟨t1, h1⟩ := execStep_highlights_ext vals st s
    obtain ⟨t2, h2⟩ := ih (execStep vals st s)
    exact ⟨t1 ++ t2, by
      show (execFold vals rest (execStep vals st s)).highlights = _
      rw [h2, h1, List.append_assoc]⟩

/-- A passing entry leaves the validity flag and the highlight list alone. -/
theorem execInput_ok (b : Bool) (sid o : Nat) (vals : FieldVals)
    (st : ExecState) (n : InputSpec)
    (hok : (if b then dataEntryValid (vals ⟨sid, n.id⟩)
            else toolEntryValid n (vals ⟨sid, n.id⟩)) = true) :
    (execInput b sid o vals st n).valid = st.valid ∧
    (execInput b sid o vals st n).highlights = st.highlights := by
  unfold execInput
  by_cases hb : b
  · rw [if_pos hb] at hok
    cases hv : vals ⟨sid, n.id⟩ with
    | batch l =>
      cases l with
      | nil => rw [hv] at hok; simp [dataEntryValid] at hok
      | cons x xs => constructor <;> simp [hb, hv]
    | null => rw [hv] at hok; simp [dataEntryValid] at hok
    | scalar s => rw [hv] at hok; simp [dataEntryValid] at hok
  · rw [if_neg hb] at hok
    constructor <;> simp [hb, hok]

theorem foldl_execInput_ok (b : Bool) (sid o : Nat) (vals : FieldVals)
    (inputs : List InputSpec)
    (hok : ∀ n ∈ inputs,
      (if b then dataEntryValid (vals ⟨sid, n.id⟩)
       else toolEntryValid n (vals ⟨sid, n.id⟩)) = true) :
    ∀ st : ExecState,
      (inputs.foldl (execInput b sid o vals) st).valid = st.valid ∧
      (inputs.foldl (execInput b sid o vals) st).highlights = st.highlights := by
  induction inputs with
  | nil => intro st; exact ⟨rfl, rfl⟩
  | cons n rest ih =>
    intro st
    have h1 := execInput_ok b sid o vals st n (hok n (by simp))
    have h2 := ih (fun n hn => hok n (List.mem_cons_of_mem _ hn))
      (execInput b sid o vals st n)
    rw [List.foldl_cons]
    exact ⟨h2.1.trans h1.1, h2.2.trans h1.2⟩

theorem execStep_ok (vals : FieldVals) (st : ExecState) (s : Step)
    (hok : ∀ n ∈ s.inputs, entryOkAt vals s n = true) :
    (execStep vals st s).valid = st.valid ∧
    (execStep vals st s).highlights = st.highlights := by
  unfold execStep
  exact foldl_execInput_ok (isDataStepType s.step_type) s.step_id s.order_index
    vals s.inputs (fun n hn => by
      have := hok n hn
      unfold entryOkAt at this
      by_cases hb : isDataStepType s.step_type <;> simp [hb] at this ⊢ <;>
        exact this) _

theorem execFold_ok (vals : FieldVals) (steps : List Step)
    (hok : ∀ s ∈ steps, ∀ n ∈ s.inputs, entryOkAt vals s n = true) :
    ∀ st : ExecState,
      (execFold vals steps st).valid = st.valid ∧
      (execFold vals steps st).highlights = st.highlights := by
  induction steps with
  | nil => intro st; exact ⟨rfl, rfl⟩
  | cons s rest ih =>
    intro st
    have h1 := execStep_ok vals st s (hok s (by simp))
    have h2 := ih (fun s1 hs1 => hok s1 (List.mem_cons_of_mem _ hs1))
      (execStep vals st s)
    show (execFold vals rest (execStep vals st s)).valid = _ ∧
      (execFold vals rest (execStep vals st s)).highlights = _
    exact ⟨h2.1.trans h1.1, h2.2.trans h1.2⟩

theorem lookup_isSome_iff_mem_keys {α β : Type} [DecidableEq α]
    (m : List (α × β)) (k : α) :
    (m.lookup k).isSome ↔ k ∈ m.map Prod.fst := by
  induction m with
  | nil => simp
  | cons a t ih =>
    obtain ⟨a1, a2⟩ := a
    by_cases hk : k = a1
    · subst hk
      simp only [List.lookup, beq_self_eq_true]
      simp
    · have hb : (k == a1) = false := by simp [hk]
      simp only [List.lookup, hb, List.map_cons, List.mem_cons]
      rw [ih]
      simp [hk]

theorem setAssoc_of_not_mem {α β : Type} [DecidableEq α]
    (m : List (α × β)) (k : α) (v : β) (h : k ∉ m.map Prod.fst) :
    setAssoc m k v = m ++ [(k, v)] := by
  unfold setAssoc
  rw [if_neg]
  intro hs
  exact h ((lookup_isSome_iff_mem_keys m k).mp hs)

theorem setAssoc_keys_of_mem {α β : Type} [DecidableEq α]
    (m : List (α × β)) (k : α) (v : β) (h : k ∈ m.map Prod.fst) :
    (setAssoc m k v).map Prod.fst = m.map Prod.fst := by
  unfold setAssoc
  rw [if_pos ((lookup_isSome_iff_mem_keys m k).mpr h)]
  rw [List.map_map]
  refine List.map_congr_left ?_
  intro p _
  by_cases hp : p.1 = k <;> simp [hp]

theorem lookup_setAssoc_self {α β : Type} [DecidableEq α]
    (m : List (α × β)) (k : α) (v : β) :
    (setAssoc m k v).lookup k = some v := by
  unfold setAssoc
  by_cases hs : (m.lookup k).isSome
  · rw [if_pos hs]
    induction m with
    | nil => simp at hs
    | cons a t ih =>
      obtain ⟨a1, a2⟩ := a
      by_cases hk : k = a1
      · subst hk
        rw [List.map_cons]
        rw [if_pos rfl]
        simp only [List.lookup, beq_self_eq_true]
      · have hb : (k == a1) = false := by simp [hk]
        have hne : ¬ a1 = k := fun hh => hk hh.symm
        rw [List.map_cons, if_neg hne]
        simp only [List.lookup, hb] at hs ⊢
        exact ih hs
  · rw [if_neg hs]
    have hn : m.lookup k = none := Option.not_isSome_iff_eq_none.mp hs
    rw [lookup_append_right_of_none _ _ _ hn]
    simp [List.lookup]

/-- Writing one value into an existing sub-map. -/
theorem lookup_paramWrite_self (m : List (Nat × List (String × FormValue)))
    (h : Nat) (k : String) (v : FormValue) (cur : List (String × FormValue))
    (hcur : m.lookup h = some cur) :
    (paramWrite m h k v).lookup h = some (setAssoc cur k v) := by
  unfold paramWrite
  rw [hcur]
  exact lookup_setAssoc_self m h _

theorem paramWrite_keys (m : List (Nat × List (String × FormValue)))
    (h : Nat) (k : String) (v : FormValue) (hm : h ∈ m.map Prod.fst) :
    (paramWrite m h k v).map Prod.fst = m.map Prod.fst := by
  unfold paramWrite
  exact setAssoc_keys_of_mem m h _ hm

/-! ### Parameter sub-map keys through the loop -/

theorem execInput_parameters_data (sid o : Nat) (vals : FieldVals)
    (st : ExecState) (n : InputSpec) :
    (execInput true sid o vals st n).parameters = st.parameters := by
  unfold execInput
  cases hv : vals ⟨sid, n.id⟩ with
  | batch l =>
    cases l with
    | nil => by_cases hval : st.valid <;> simp [hval]
    | cons x xs => simp
  | null => by_cases hval : st.valid <;> simp [hval]
  | scalar s => by_cases hval : st.valid <;> simp [hval]

theorem execInput_inputs_tool (sid o : Nat) (vals : FieldVals)
    (st : ExecState) (n : InputSpec) :
    (execInput false sid o vals st n).inputs = st.inputs := by
  unfold execInput
  by_cases ht : toolEntryValid n (vals ⟨sid, n.id⟩) <;> simp [ht]

theorem foldl_execInput_param_keys (b : Bool) (sid o : Nat)
    (vals : FieldVals) (inputs : List InputSpec) :
    ∀ st : ExecState, sid ∈ st.parameters.map Prod.fst →
      (inputs.foldl (execInput b sid o vals) st).parameters.map Prod.fst =
        st.parameters.map Prod.fst := by
  induction inputs with
  | nil => intro st _; rfl
  | cons n rest ih =>
    intro st hmem
    rw [List.foldl_cons]
    have hstep : (execInput b sid o vals st n).parameters.map Prod.fst =
        st.parameters.map Prod.fst := by
      unfold execInput
      by_cases hb : b
      · cases hv : vals ⟨sid, n.id⟩ with
        | batch l =>
          cases l with
          | nil => by_cases hval : st.valid <;> simp [hb, hval]
          | cons x xs => simp [hb]
        | null => by_cases hval : st.valid <;> simp [hb, hval]
        | scalar s => by_cases hval : st.valid <;> simp [hb, hval]
      · by_cases ht : toolEntryValid n (vals ⟨sid, n.id⟩)
        · simp only [hb, if_false, ht, if_true]
          exact paramWrite_keys st.parameters sid n.id _ hmem
        · simp [hb, ht]
    rw [ih _ (hstep ▸ hmem), hstep]

theorem execStep_param_keys (vals : FieldVals) (st : ExecState) (s : Step)
    (h : s.step_id ∉ st.parameters.map Prod.fst) :
    (execStep vals st s).parameters.map Prod.fst =
      st.parameters.map Prod.fst ++ [s.step_id] := by
  unfold execStep
  have hset : setAssoc st.parameters s.step_id ([] : List (String × FormValue)) =
      st.parameters ++ [(s.step_id, [])] := setAssoc_of_not_mem _ _ _ h
  have hmem : s.step_id ∈
      (setAssoc st.parameters s.step_id
        ([] : List (String × FormValue))).map Prod.fst := by
    rw [hset]; simp
  rw [foldl_execInput_param_keys _ _ _ vals s.inputs _ hmem]
  rw [hset]
  simp

theorem execFold_param_keys (vals : FieldVals) (steps : List Step) :
    ∀ st : ExecState,
      (∀ s ∈ steps, s.step_id ∉ st.parameters.map Prod.fst) →
      (steps.map (fun s => s.step_id)).Nodup →
      (execFold vals steps st).parameters.map Prod.fst =
        st.parameters.map Prod.fst ++ steps.map (fun s => s.step_id) := by
  induction steps with
  | nil => intro st _ _; simp [execFold]
  | cons s rest ih =>
    intro st hfresh hnd
    have h1 := execStep_param_keys vals st s (hfresh s (by simp))
    show (execFold vals rest (execStep vals st s)).parameters.map Prod.fst = _
    rw [ih _ ?_ ?_]
    · rw [h1]; simp
    · intro s1 hs1
      rw [h1]
      simp only [List.mem_append, List.mem_singleton]
      rintro (hin | hid)
      · exact hfresh s1 (List.mem_cons_of_mem _ hs1) hin
      · rw [List.map_cons] at hnd
        exact (List.nodup_cons.mp hnd).1
          (hid ▸ List.mem_map.mpr ⟨s1, hs1, rfl⟩)
    · rw [List.map_cons] at hnd
      exact (List.nodup_cons.mp hnd).2

theorem foldl_execInput_inputs_tool (sid o : Nat) (vals : FieldVals)
    (inputs : List InputSpec) :
    ∀ st : ExecState,
      (inputs.foldl (execInput false sid o vals) st).inputs = st.inputs := by
  induction inputs with
  | nil => intro st; rfl
  | cons n rest ih =>
    intro st
    rw [List.foldl_cons, ih]
    exact execInput_inputs_tool sid o vals st n

theorem execStep_inputs_tool (vals : FieldVals) (st : ExecState) (s : Step)
    (h : isDataStepType s.step_type = false) :
    (execStep vals st s).inputs = st.inputs := by
  unfold execStep
  rw [h]
  exact foldl_execInput_inputs_tool s.step_id s.order_index vals s.inputs _

theorem filter_data_cons_pos (s : Step) (rest : List Step)
    (hd : isDataStepType s.step_type = true) :
    (s :: rest).filter (fun s1 => isDataStepType s1.step_type) =
      s :: rest.filter (fun s1 => isDataStepType s1.step_type) := by
  simp [List.filter_cons, hd]

theorem filter_data_cons_neg (s : Step) (rest : List Step)
    (hd : isDataStepType s.step_type = false) :
    (s :: rest).filter (fun s1 => isDataStepType s1.step_type) =
      rest.filter (fun s1 => isDataStepType s1.step_type) := by
  simp [List.filter_cons, hd]

/-- The inputs map after the loop: one entry per data-input step, keyed by
its order index, provided the run validates. -/
theorem execFold_inputs_keys (vals : FieldVals) (steps : List Step) :
    ∀ st : ExecState,
      (execFold vals steps st).valid = true →
      (∀ s ∈ steps, isDataStepType s.step_type = true → ∃ n, s.inputs = [n]) →
      (∀ s ∈ steps, isDataStepType s.step_type = true →
        s.order_index ∉ st.inputs.map Prod.fst) →
      ((steps.filter (fun s => isDataStepType s.step_type)).map
        (fun s => s.order_index)).Nodup →
      (execFold vals steps st).inputs.map Prod.fst =
        st.inputs.map Prod.fst ++
          (steps.filter (fun s => isDataStepType s.step_type)).map
            (fun s => s.order_index) := by
  induction steps with
  | nil => intro st _ _ _ _; simp [execFold]
  | cons s rest ih =>
    intro st hvalid hone hfresh hnd
    have hvalid' : (execFold vals rest (execStep vals st s)).valid = true := hvalid
    by_cases hd : isDataStepType s.step_type
    · obtain ⟨n, hn⟩ := hone s (by simp) hd
      have hstep : execStep vals st s =
          execInput true s.step_id s.order_index vals
            { st with parameters := setAssoc st.parameters s.step_id [] } n := by
        unfold execStep
        rw [hd, hn, List.foldl_cons, List.foldl_nil]
      have hcontra : ∀ hinv : (execStep vals st s).valid = false, False := by
        intro hinv
        have := execFold_valid_mono vals rest _ hinv
        rw [hvalid'] at this
        exact Bool.noConfusion this
      cases hv : vals ⟨s.step_id, n.id⟩ with
      | batch l =>
        cases l with
        | nil =>
          exfalso
          exact hcontra (by
            rw [hstep]
            unfold execInput
            by_cases hval : st.valid <;> simp [hv, hval])
        | cons x xs =>
          have hstep2 : execStep vals st s =
              { st with
                  parameters := setAssoc st.parameters s.step_id [],
                  inputs := setAssoc st.inputs s.order_index x } := by
            rw [hstep]
            unfold execInput
            simp [hv]
          have hkeys : (execStep vals st s).inputs.map Prod.fst =
              st.inputs.map Prod.fst ++ [s.order_index] := by
            rw [hstep2]
            show (setAssoc st.inputs s.order_index x).map Prod.fst = _
            rw [setAssoc_of_not_mem _ _ _ (hfresh s (by simp) hd)]
            simp
          show (execFold vals rest (execStep vals st s)).inputs.map Prod.fst = _
          rw [ih _ hvalid'
            (fun s1 hs1 hd1 => hone s1 (List.mem_cons_of_mem _ hs1) hd1)
            ?hfresh2 ?hnd2]
          case hfresh2 =>
            intro s1 hs1 hd1
            rw [hkeys]
            simp only [List.mem_append, List.mem_singleton]
            rintro (hin | hoi)
            · exact hfresh s1 (List.mem_cons_of_mem _ hs1) hd1 hin
            · rw [filter_data_cons_pos s rest hd, List.map_cons] at hnd
              exact (List.nodup_cons.mp hnd).1
                (hoi ▸ List.mem_map.mpr
                  ⟨s1, List.mem_filter.mpr ⟨hs1, hd1⟩, rfl⟩)
          case hnd2 =>
            rw [filter_data_cons_pos s rest hd, List.map_cons] at hnd
            exact (List.nodup_cons.mp hnd).2
          rw [hkeys, filter_data_cons_pos s rest hd]
          simp
      | null =>
        exfalso
        exact hcontra (by
          rw [hstep]
          unfold execInput
          by_cases hval : st.valid <;> simp [hv, hval])
      | scalar str =>
        exfalso
        exact hcontra (by
          rw [hstep]
          unfold execInput
          by_cases hval : st.valid <;> simp [hv, hval])
    · have hd' : isDataStepType s.step_type = false := by simpa using hd
      have hinp := execStep_inputs_tool vals st s hd'
      show (execFold vals rest (execStep vals st s)).inputs.map Prod.fst = _
      rw [ih _ hvalid'
        (fun s1 hs1 hd1 => hone s1 (List.mem_cons_of_mem _ hs1) hd1)
        ?hfresh2 ?hnd2]
      case hfresh2 =>
        intro s1 hs1 hd1
        rw [hinp]
        exact hfresh s1 (List.mem_cons_of_mem _ hs1) hd1
      case hnd2 =>
        rw [filter_data_cons_neg s rest hd'] at hnd
        exact hnd
      rw [hinp, filter_data_cons_neg s rest hd']

/-- The tool branch of the loop: accepted values accumulate in the step's
sub-map keyed by the input id, rejected inputs are highlighted. -/
theorem foldl_execInput_tool_submap (sid o : Nat) (vals : FieldVals)
    (inputs : List InputSpec) :
    ∀ (st : ExecState) (cur : List (String × FormValue)),
      st.parameters.lookup sid = some cur →
      (∀ n ∈ inputs, n.id ∉ cur.map Prod.fst) →
      (inputs.map (fun n => n.id)).Nodup →
      (inputs.foldl (execInput false sid o vals) st).parameters.lookup sid =
        some (cur ++
          (inputs.filter
            (fun n => toolEntryValid n (vals ⟨sid, n.id⟩))).map
              (fun n => (n.id, vals ⟨sid, n.id⟩))) ∧
      (inputs.foldl (execInput false sid o vals) st).highlights =
        st.highlights ++
          (inputs.filter
            (fun n => ! toolEntryValid n (vals ⟨sid, n.id⟩))).map
              (fun n => (⟨sid, n.id⟩ : FieldRef)) := by
  induction inputs with
  | nil =>
    intro st cur hcur _ _
    constructor
    · simpa using hcur
    · simp
  | cons n rest ih =>
    intro st cur hcur hfresh hnd
    rw [List.foldl_cons]
    by_cases ht : toolEntryValid n (vals ⟨sid, n.id⟩)
    · have hstep : execInput false sid o vals st n =
          { st with
              parameters :=
                paramWrite st.parameters sid n.id (vals ⟨sid, n.id⟩) } := by
        unfold execInput
        simp [ht]
      have hcur2 : (execInput false sid o vals st n).parameters.lookup sid =
          some (cur ++ [(n.id, vals ⟨sid, n.id⟩)]) := by
        rw [hstep]
        show (paramWrite st.parameters sid n.id (vals ⟨sid, n.id⟩)).lookup sid = _
        rw [lookup_paramWrite_self st.parameters sid n.id _ cur hcur,
          setAssoc_of_not_mem _ _ _ (hfresh n (by simp))]
      have hres := ih (execInput false sid o vals st n)
        (cur ++ [(n.id, vals ⟨sid, n.id⟩)]) hcur2 ?hfr ?hnd2
      case hfr =>
        intro n1 hn1
        simp only [List.map_append, List.mem_append, List.map_cons,
          List.map_nil, List.mem_singleton]
        rintro (hin | hid)
        · exact hfresh n1 (List.mem_cons_of_mem _ hn1) hin
        · rw [List.map_cons] at hnd
          exact (List.nodup_cons.mp hnd).1
            (hid ▸ List.mem_map.mpr ⟨n1, hn1, rfl⟩)
      case hnd2 =>
        rw [List.map_cons] at hnd
        exact (List.nodup_cons.mp hnd).2
      constructor
      · rw [hres.1, List.filter_cons]
        simp [ht]
      · rw [hres.2, List.filter_cons]
        have hhl : (execInput false sid o vals st n).highlights =
            st.highlights := by rw [hstep]
        rw [hhl]
        simp [ht]
    · have ht' : toolEntryValid n (vals ⟨sid, n.id⟩) = false := by
        simpa using ht
      have hstep : execInput false sid o vals st n =
          { st with
              highlights := st.highlights ++ [⟨sid, n.id⟩],
              valid := false } := by
        unfold execInput
        simp [ht']
      have hcur2 : (execInput false sid o vals st n).parameters.lookup sid =
          some cur := by rw [hstep]; exact hcur
      have hres := ih (execInput false sid o vals st n) cur hcur2
        (fun n1 hn1 => hfresh n1 (List.mem_cons_of_mem _ hn1))
        (by rw [List.map_cons] at hnd; exact (List.nodup_cons.mp hnd).2)
      constructor
      · rw [hres.1, List.filter_cons]
        simp [ht']
      · rw [hres.2, List.filter_cons]
        have hhl : (execInput false sid o vals st n).highlights =
            st.highlights ++ [(⟨sid, n.id⟩ : FieldRef)] := by rw [hstep]
        rw [hhl]
        simp [ht']

/-- What `execStep` does to a tool-typed step. -/
theorem execStep_tool_submap (vals : FieldVals) (st : ExecState) (s : Step)
    (htool : s.step_type = "tool")
    (hnd : (s.inputs.map (fun n => n.id)).Nodup) :
    (execStep vals st s).parameters.lookup s.step_id =
      some ((s.inputs.filter
        (fun n => toolEntryValid n (vals ⟨s.step_id, n.id⟩))).map
          (fun n => (n.id, vals ⟨s.step_id, n.id⟩))) ∧
    (execStep vals st s).highlights =
      st.highlights ++
        (s.inputs.filter
          (fun n => ! toolEntryValid n (vals ⟨s.step_id, n.id⟩))).map
            (fun n => (⟨s.step_id, n.id⟩ : FieldRef)) := by
  unfold execStep
  have hdt : isDataStepType s.step_type = false := by
    rw [htool]; rfl
  rw [hdt]
  have hcur : (setAssoc st.parameters s.step_id
      ([] : List (String × FormValue))).lookup s.step_id = some [] :=
    lookup_setAssoc_self st.parameters s.step_id []
  have := foldl_execInput_tool_submap s.step_id s.order_index vals s.inputs
    { st with parameters := setAssoc st.parameters s.step_id [] } [] hcur
    (by simp) hnd
  simpa using this


/-! ## The claims -/

/-- C1 (counterexample): the spec's placeholder pattern is a name between two
dollar signs, but the source slices off the first two and the last character
of the value (the recognizer for the dollar-brace convention), so the value
"$color$" — which matches the spec's pattern with name "color" — produces a
single WorkflowParameter named "olor", and no parameter named "color"
exists. -/
theorem C1_counterexample :
    specPlaceholderName "$color$" = some "color" ∧
    (discoveredParams exWP).map (fun p => p.name) = ["olor"] ∧
    ((("color" : String) ∈ (discoveredParams exWP).map (fun p => p.name)) →
      False) := by decide

/-- C1 (amended): for every step input whose stringified value begins with a
dollar sign (the source's recognizer; the extracted name is the value with
its first two and its last character removed, sanitized), the discovered
WorkflowParameter registry contains exactly one entry per distinct extracted
name, and a change pushed through the parameter form updates every target
field recorded for the edited parameter and leaves every field recorded for
no pushed parameter unchanged. -/
theorem C1_amended : ∀ (w : Workflow),
    ((discoveredParams w).map (fun p => p.name)).Nodup ∧
    (∀ n, n ∈ (discoveredParams w).map (fun p => p.name) ↔
      n ∈ extractedNames (normalizeSteps w.steps)) ∧
    (∀ (values : List (String × String)) (fields : FieldRef → String),
      (values.map Prod.fst).Nodup →
      (dollarRefs (normalizeSteps w.steps)).Nodup →
      (∀ cv ∈ values, ∀ r ∈ targetList w cv.1,
        propagate (discoveredTargets w) values fields r =
          propagateValue cv.1 cv.2) ∧
      (∀ r : FieldRef, (∀ cv ∈ values, r ∉ targetList w cv.1) →
        propagate (discoveredTargets w) values fields r = fields r)) := by
  intro w
  refine ⟨discoveredParams_names_nodup w, mem_discoveredParams_names w, ?_⟩
  intro values fields hknd hrnd
  constructor
  · intro cv hcv r hr
    exact propagate_target (discoveredTargets w) values fields cv r hknd hcv hr
      (fun c hc => targetList_disjoint w hrnd cv.1 c (fun hh => hc hh.symm) r hr)
  · intro r hru
    exact propagate_untouched (discoveredTargets w) values fields r hru

theorem C1_amended_witness :
    propagate (discoveredTargets exWP) [("olor", "red")]
      (initialFields (normalizeSteps exWP.steps)) ⟨1, "a"⟩ =
      propagateValue "olor" "red" ∧
    propagate (discoveredTargets exWP) [("olor", "red")]
      (initialFields (normalizeSteps exWP.steps)) ⟨2, "zz"⟩ =
      initialFields (normalizeSteps exWP.steps) ⟨2, "zz"⟩ :=
  ⟨((C1_amended exWP).2.2 [("olor", "red")]
      (initialFields (normalizeSteps exWP.steps)) (by decide) (by decide)).1
    ("olor", "red") (by decide) ⟨1, "a"⟩ (by decide),
   ((C1_amended exWP).2.2 [("olor", "red")]
      (initialFields (normalizeSteps exWP.steps)) (by decide) (by decide)).2
    ⟨2, "zz"⟩ (by decide)⟩

/-- C2 (counterexample): the source executes `c.parameters[step_id] = {}` for
every step before branching on the step type, so a workflow consisting of a
single data-input step still passes validation with a parameters map carrying
one (empty) sub-map keyed by that non-tool step's id — contradicting "no
sub-maps for non-tool steps". -/
theorem C2_counterexample :
    (execRun exC2 exValsC2).valid = true ∧
    (execRun exC2 exValsC2).parameters = [(5, [])] ∧
    exC2.steps.all (fun s => ! (s.step_type == "tool")) = true := by decide

theorem isData_ne_tool (t : String) (h : isDataStepType t = true) :
    t ≠ "tool" := by
  intro ht
  subst ht
  exact absurd h (by decide)

theorem normalizeStep_of_ne_tool (s : Step) (h : s.step_type ≠ "tool") :
    normalizeStep s = s := by
  unfold normalizeStep
  rw [if_neg h]

theorem normalizeSteps_data_order (steps : List Step) :
    ((normalizeSteps steps).filter (fun s => isDataStepType s.step_type)).map
        (fun s => s.order_index) =
      (steps.filter (fun s => isDataStepType s.step_type)).map
        (fun s => s.order_index) := by
  induction steps with
  | nil => rfl
  | cons s rest ih =>
    show ((normalizeStep s :: normalizeSteps rest).filter _).map _ = _
    by_cases hd : isDataStepType s.step_type
    · rw [filter_data_cons_pos _ _ (by rw [normalizeStep_step_type]; exact hd),
        filter_data_cons_pos _ _ hd, List.map_cons, List.map_cons, ih,
        normalizeStep_order_index]
    · have hd' : isDataStepType s.step_type = false := by simpa using hd
      rw [filter_data_cons_neg _ _ (by rw [normalizeStep_step_type]; exact hd'),
        filter_data_cons_neg _ _ hd', ih]

/-- C2 (amended): on a submission that passes validation, the request's
parameters map contains exactly one sub-map per step — tool or not — keyed by
the step's id (sub-maps of non-tool steps are empty, as shown by the
counterexample), and the inputs map contains exactly one entry per
data-input-typed step keyed by that step's order index. -/
theorem C2_amended : ∀ (w : Workflow) (vals : FieldVals),
    (execRun w vals).valid = true →
    (w.steps.map (fun s => s.step_id)).Nodup →
    (∀ s ∈ w.steps, isDataStepType s.step_type = true → ∃ n, s.inputs = [n]) →
    ((w.steps.filter (fun s => isDataStepType s.step_type)).map
      (fun s => s.order_index)).Nodup →
    (execRun w vals).parameters.map Prod.fst =
      w.steps.map (fun s => s.step_id) ∧
    (execRun w vals).inputs.map Prod.fst =
      (w.steps.filter (fun s => isDataStepType s.step_type)).map
        (fun s => s.order_index) := by
  intro w vals hvalid hnd hone hond
  have hndn : ((normalizeSteps w.steps).map (fun s => s.step_id)).Nodup := by
    rw [normalizeSteps_step_ids]; exact hnd
  have honen : ∀ s ∈ normalizeSteps w.steps,
      isDataStepType s.step_type = true → ∃ n, s.inputs = [n] := by
    intro s hs hd
    obtain ⟨s0, hs0, rfl⟩ := List.mem_map.mp hs
    have ht : s0.step_type ≠ "tool" := by
      apply isData_ne_tool
      rw [← normalizeStep_step_type s0]
      exact hd
    rw [normalizeStep_of_ne_tool s0 ht] at hd ⊢
    exact hone s0 hs0 hd
  have hondn : (((normalizeSteps w.steps).filter
      (fun s => isDataStepType s.step_type)).map
        (fun s => s.order_index)).Nodup := by
    rw [normalizeSteps_data_order]; exact hond
  constructor
  · have := execFold_param_keys vals (normalizeSteps w.steps)
      ⟨[], [], true, []⟩ (by intro s _ hmem; simp at hmem) hndn
    show (execFold vals (normalizeSteps w.steps)
      ⟨[], [], true, []⟩).parameters.map Prod.fst = _
    rw [this]
    show ([] : List Nat) ++ _ = _
    rw [List.nil_append, normalizeSteps_step_ids]
  · have := execFold_inputs_keys vals (normalizeSteps w.steps)
      ⟨[], [], true, []⟩ hvalid honen (by intro s _ _ hmem; simp at hmem) hondn
    show (execFold vals (normalizeSteps w.steps)
      ⟨[], [], true, []⟩).inputs.map Prod.fst = _
    rw [this]
    show ([] : List Nat) ++ _ = _
    rw [List.nil_append, normalizeSteps_data_order]

theorem C2_amended_witness :
    (execRun exC2b exValsC2).parameters.map Prod.fst = [5, 6] ∧
    (execRun exC2b exValsC2).inputs.map Prod.fst = [0] := by
  have hone : ∀ s ∈ exC2b.steps, isDataStepType s.step_type = true →
      ∃ n, s.inputs = [n] := by
    intro s hs hd
    simp [exC2b] at hs
    rcases hs with rfl | rfl
    · exact ⟨_, rfl⟩
    · exact absurd hd (by decide)
  have h := C2_amended exC2b exValsC2 (by decide) (by decide) hone (by decide)
  exact ⟨h.1.trans (by decide), h.2.trans (by decide)⟩


/-- C3: an input with an incoming connection is rewritten by normalization to
a disabled rendering — hidden type, value and options cleared, provenance
help text listing each upstream output — and, whatever its declared type was,
its field handle never enters any workflow-parameter target list (its cleared
value can no longer match the placeholder recognizer). -/
theorem C3_theorem : ∀ (w : Workflow) (s : Step) (inp : InputSpec)
    (conns : List Connection),
    s ∈ w.steps → s.step_type = "tool" → inp ∈ s.inputs →
    s.input_connections_by_name.lookup inp.id = some conns →
    (w.steps.map (fun s1 => s1.step_id)).Nodup →
    (∀ s1 ∈ w.steps, (s1.inputs.map (fun i => i.id)).Nodup) →
    ((toolInputRewrite s inp) ∈ (normalizeStep s).inputs ∧
      (toolInputRewrite s inp).id = inp.id ∧
      (toolInputRewrite s inp).type = "hidden" ∧
      (toolInputRewrite s inp).value = JVal.str "" ∧
      (toolInputRewrite s inp).options = none ∧
      (toolInputRewrite s inp).help = connectionHelp conns) ∧
    (∀ c : String, (⟨s.step_id, inp.id⟩ : FieldRef) ∉ targetList w c) := by
  intro w s inp conns hs htool hinp hconn hndS hndI
  obtain ⟨hid, htyp, hval, hopt, hhelp⟩ := toolInputRewrite_connected s inp conns hconn
  have hmem : (toolInputRewrite s inp) ∈ (normalizeStep s).inputs := by
    unfold normalizeStep
    rw [if_pos htool]
    show toolInputRewrite s inp ∈ normalizeToolInputs s
    rw [normalizeToolInputs_eq_map]
    exact List.mem_map_of_mem (toolInputRewrite s) hinp
  refine ⟨⟨hmem, hid, htyp, hval, hopt, hhelp⟩, ?_⟩
  intro c hc
  have hr := mem_targetList_mem_dollarRefs w c _ hc
  rw [mem_dollarRefs] at hr
  obtain ⟨s1, hs1, i1, hi1, hdol, heq⟩ := hr
  obtain ⟨s0, hs0, hs0eq⟩ := List.mem_map.mp hs1
  have hsid : s0.step_id = s.step_id := by
    have h1 : s.step_id = s1.step_id := congrArg FieldRef.step_id heq
    rw [h1, ← hs0eq, normalizeStep_step_id]
  have hs0s : s0 = s := List.inj_on_of_nodup_map hndS hs0 hs hsid
  subst hs0s
  have hs1n : s1 = normalizeStep s0 := hs0eq.symm
  subst hs1n
  have hni : (normalizeStep s0).inputs = s0.inputs.map (toolInputRewrite s0) := by
    unfold normalizeStep
    rw [if_pos htool]
    exact normalizeToolInputs_eq_map s0
  rw [hni] at hi1
  obtain ⟨i0, hi0, hi0eq⟩ := List.mem_map.mp hi1
  have hiid : i0.id = inp.id := by
    have h2 : inp.id = i1.id := congrArg FieldRef.input_id heq
    rw [h2, ← hi0eq, toolInputRewrite_id]
  have hi0i : i0 = inp := List.inj_on_of_nodup_map (hndI s0 hs0) hi0 hinp hiid
  subst hi0i
  rw [← hi0eq] at hdol
  have hv0 : (toolInputRewrite s0 i0).value = JVal.str "" := hval
  rw [hv0] at hdol
  exact absurd hdol (by decide)

theorem C3_theorem_witness :
    ((⟨3, "c"⟩ : FieldRef) ∈ targetList exC3W "x" → False) ∧
    (toolInputRewrite exC3S exC3I).type = "hidden" :=
  ⟨fun hm =>
    ((C3_theorem exC3W exC3S exC3I [⟨"out1", 0⟩, ⟨"out2", 1⟩]
      (by decide) rfl (by decide) (by decide) (by decide)
      (by intro s1 hs1; simp [exC3W, exC3S] at hs1; subst hs1; decide)).2 "x") hm,
   (C3_theorem exC3W exC3S exC3I [⟨"out1", 0⟩, ⟨"out2", 1⟩]
      (by decide) rfl (by decide) (by decide) (by decide)
      (by intro s1 hs1; simp [exC3W, exC3S] at hs1; subst hs1; decide)).1.2.2.1⟩

/-- The data branch on a value that is not a non-empty batch: highlight only
while the validity flag still holds, then clear it. -/
theorem execInput_data_invalid (sid o : Nat) (vals : FieldVals)
    (st : ExecState) (n : InputSpec) (hval : st.valid = true)
    (hinv : dataEntryValid (vals ⟨sid, n.id⟩) = false) :
    execInput true sid o vals st n =
      { st with
          highlights := st.highlights ++ [⟨sid, n.id⟩],
          valid := false } := by
  unfold execInput
  cases hv : vals ⟨sid, n.id⟩ with
  | batch l =>
    cases l with
    | nil => simp [hval]
    | cons x xs => rw [hv] at hinv; simp [dataEntryValid] at hinv
  | null => simp [hval]
  | scalar s => simp [hval]

theorem execFold_append (vals : FieldVals) (A B : List Step) (st : ExecState) :
    execFold vals (A ++ B) st = execFold vals B (execFold vals A st) := by
  unfold execFold
  exact List.foldl_append _ _ _ _

/-- C4 (counterexample): the source guards the data-input highlight with the
validity flag, so when an invalid tool field precedes the empty data-input
field, the submission is rejected but the data-input field — the "first such
field" of the claim — is never highlighted (only the tool field is). -/
theorem C4_counterexample :
    (execRun exC4 (fun _ => FormValue.null)).valid = false ∧
    (execRun exC4 (fun _ => FormValue.null)).highlights =
      [(⟨1, "t"⟩ : FieldRef)] ∧
    (((⟨2, "d"⟩ : FieldRef) ∈
      (execRun exC4 (fun _ => FormValue.null)).highlights) → False) ∧
    (exC4.steps.filter (fun s => isDataStepType s.step_type)).map
      (fun s => s.step_id) = [2] ∧
    (fun _ => FormValue.null : FieldVals) ⟨2, "d"⟩ = FormValue.null := by decide

/-- C4 (amended): whenever some data-input-typed step's field holds no
selectable value at execute time, the submission is rejected and no request
is sent; the empty data-input field itself is highlighted provided every
entry processed before it passed classification (otherwise an earlier
invalid field was highlighted instead and the data field is skipped). -/
theorem C4_amended : ∀ (w : Workflow) (vals : FieldVals) (A B : List Step)
    (s : Step) (ipre ipost : List InputSpec) (n : InputSpec),
    normalizeSteps w.steps = A ++ s :: B →
    isDataStepType s.step_type = true →
    s.inputs = ipre ++ n :: ipost →
    (∀ s1 ∈ A, ∀ n1 ∈ s1.inputs, entryOkAt vals s1 n1 = true) →
    (∀ n1 ∈ ipre, dataEntryValid (vals ⟨s.step_id, n1.id⟩) = true) →
    dataEntryValid (vals ⟨s.step_id, n.id⟩) = false →
    (execRun w vals).valid = false ∧
    (⟨s.step_id, n.id⟩ : FieldRef) ∈ (execRun w vals).highlights ∧
    executeOutcome (historyFormCreated w) (execRun w vals) =
      ExecOutcome.rejected := by
  intro w vals A B s ipre ipost n hsplit hdata hinputs hokA hokpre hinv
  have hrun : execRun w vals =
      execFold vals (s :: B) (execFold vals A ⟨[], [], true, []⟩) := by
    unfold execRun execValidate
    rw [hsplit, execFold_append]
  set st1 := execFold vals A (⟨[], [], true, []⟩ : ExecState) with hst1
  have hok1 := execFold_ok vals A hokA (⟨[], [], true, []⟩ : ExecState)
  have hv1 : st1.valid = true := hok1.1
  have hh1 : st1.highlights = [] := hok1.2
  -- the data step: the parameters write, then the input loop split at n
  have hstep : execStep vals st1 s =
      (s.inputs.foldl
        (execInput (isDataStepType s.step_type) s.step_id s.order_index vals)
        { st1 with parameters := setAssoc st1.parameters s.step_id [] }) := rfl
  set st2 := ({ st1 with
    parameters := setAssoc st1.parameters s.step_id [] } : ExecState) with hst2
  have hv2 : st2.valid = true := hv1
  have hh2 : st2.highlights = [] := hh1
  have hsplit2 : s.inputs.foldl
      (execInput (isDataStepType s.step_type) s.step_id s.order_index vals) st2 =
    (n :: ipost).foldl
      (execInput (isDataStepType s.step_type) s.step_id s.order_index vals)
      (ipre.foldl
        (execInput (isDataStepType s.step_type) s.step_id s.order_index vals)
        st2) := by
    rw [hinputs, List.foldl_append]
  set st3 := ipre.foldl
    (execInput (isDataStepType s.step_type) s.step_id s.order_index vals) st2
    with hst3
  have hok3 := foldl_execInput_ok (isDataStepType s.step_type) s.step_id
    s.order_index vals ipre
    (by
      intro n1 hn1
      rw [hdata, if_pos rfl]
      exact hokpre n1 hn1) st2
  rw [hdata] at hok3
  have hv3 : st3.valid = true := by rw [hst3, hdata, hok3.1, hv2]
  have hh3 : st3.highlights = [] := by rw [hst3, hdata, hok3.2, hh2]
  have hafter : execInput true s.step_id s.order_index vals st3 n =
      { st3 with
          highlights := st3.highlights ++ [⟨s.step_id, n.id⟩],
          valid := false } :=
    execInput_data_invalid s.step_id s.order_index vals st3 n hv3 hinv
  set st4 := execInput true s.step_id s.order_index vals st3 n with hst4
  have hv4 : st4.valid = false := by rw [hafter]
  have hh4 : st4.highlights = [⟨s.step_id, n.id⟩] := by
    rw [hafter]
    show st3.highlights ++ [(⟨s.step_id, n.id⟩ : FieldRef)] = _
    rw [hh3, List.nil_append]
  -- push through the rest of the inputs and the remaining steps
  have hstepres : execStep vals st1 s =
      ipost.foldl (execInput true s.step_id s.order_index vals) st4 := by
    rw [hstep, hsplit2, hdata, List.foldl_cons]
  have hv5 : (execStep vals st1 s).valid = false := by
    rw [hstepres]
    exact foldl_execInput_valid_mono true s.step_id s.order_index vals ipost
      st4 hv4
  obtain ⟨t5, hh5⟩ := foldl_execInput_highlights_ext true s.step_id
    s.order_index vals ipost st4
  have hmem5 : (⟨s.step_id, n.id⟩ : FieldRef) ∈ (execStep vals st1 s).highlights := by
    rw [hstepres, hh5, hh4]
    simp
  have hv6 : (execRun w vals).valid = false := by
    rw [hrun]
    show (execFold vals B (execFold vals [s] st1)).valid = false
    refine execFold_valid_mono vals B _ ?_
    show (execFold vals [s] st1).valid = false
    show (execStep vals st1 s).valid = false
    exact hv5
  obtain ⟨t6, hh6⟩ := execFold_highlights_ext vals B (execStep vals st1 s)
  have hmem6 : (⟨s.step_id, n.id⟩ : FieldRef) ∈ (execRun w vals).highlights := by
    rw [hrun]
    show (⟨s.step_id, n.id⟩ : FieldRef) ∈
      (execFold vals B (execStep vals st1 s)).highlights
    rw [hh6]
    exact List.mem_append_left _ hmem5
  refine ⟨hv6, hmem6, ?_⟩
  unfold executeOutcome
  rw [hv6]
  rfl

theorem C4_amended_witness :
    (execRun exC2 (fun _ => FormValue.null)).valid = false ∧
    (⟨5, "d"⟩ : FieldRef) ∈
      (execRun exC2 (fun _ => FormValue.null)).highlights ∧
    executeOutcome (historyFormCreated exC2)
      (execRun exC2 (fun _ => FormValue.null)) = ExecOutcome.rejected :=
  C4_amended exC2 (fun _ => FormValue.null) [] []
    { step_id := 5, step_type := "data_input", order_index := 0,
      inputs := [{ id := "d", type := "data", value := .null }] }
    [] [] { id := "d", type := "data", value := .null }
    (by decide) (by decide) (by decide)
    (by intro s1 hs1; simp at hs1) (by intro n1 hn1; simp at hn1) (by decide)

theorem toolEntryValid_false_iff (n : InputSpec) (v : FormValue) :
    toolEntryValid n v = false ↔
      (n.optional = false ∧ n.is_workflow = false ∧ v = FormValue.null) := by
  unfold toolEntryValid
  constructor
  · intro h
    simp only [Bool.or_eq_false_iff, Bool.not_eq_false'] at h
    exact ⟨h.1.1, h.1.2, by simpa using h.2⟩
  · rintro ⟨h1, h2, rfl⟩
    simp [h1, h2]


/-- C5: during validation of a tool-typed step, an extracted value is
classified invalid — highlighted and withheld from the request — exactly when
its input is neither optional nor workflow-bound and the value is null; every
other extracted value is written into the step's parameters sub-map under its
input id. -/
theorem C5_theorem : ∀ (s : Step) (vals : FieldVals) (st : ExecState),
    s.step_type = "tool" →
    (s.inputs.map (fun n => n.id)).Nodup →
    (execStep vals st s).parameters.lookup s.step_id =
      some ((s.inputs.filter
        (fun n => toolEntryValid n (vals ⟨s.step_id, n.id⟩))).map
          (fun n => (n.id, vals ⟨s.step_id, n.id⟩))) ∧
    (execStep vals st s).highlights = st.highlights ++
      (s.inputs.filter
        (fun n => ! toolEntryValid n (vals ⟨s.step_id, n.id⟩))).map
          (fun n => (⟨s.step_id, n.id⟩ : FieldRef)) ∧
    (∀ (n : InputSpec) (v : FormValue),
      toolEntryValid n v = false ↔
        (n.optional = false ∧ n.is_workflow = false ∧ v = FormValue.null)) := by
  intro s vals st htool hnd
  obtain ⟨h1, h2⟩ := execStep_tool_submap vals st s htool hnd
  exact ⟨h1, h2, toolEntryValid_false_iff⟩

theorem C5_theorem_witness :
    (execStep exVals5 ⟨[], [], true, []⟩ exS5).parameters.lookup 7 =
      some [("ok", FormValue.scalar "v")] ∧
    (execStep exVals5 ⟨[], [], true, []⟩ exS5).highlights =
      [(⟨7, "req"⟩ : FieldRef)] ∧
    (toolEntryValid { id := "req", type := "text", value := .null }
      (exVals5 ⟨7, "req"⟩) = false) := by
  have h := C5_theorem exS5 exVals5 ⟨[], [], true, []⟩ rfl (by decide)
  refine ⟨h.1.trans (by decide), (h.2.1).trans (by decide), ?_⟩
  exact (h.2.2 { id := "req", type := "text", value := .null }
    (exVals5 ⟨7, "req"⟩)).mpr ⟨rfl, rfl, by decide⟩

/-- C6 (counterexample): nineteen distinct placeholders are discovered in one
form build; the colour sequence is the rotation in discovery order, but the
19th parameter's hue argument (1900 degrees) denotes the same hue angle as
the 1st parameter's (100 degrees), so the 19th discovered parameter does not
receive a hue strictly different from all previously discovered ones. -/
theorem C6_counterexample :
    (discoveredParams exC6).length = 19 ∧
    (discoveredParams exC6).map (fun p => p.color) =
      (List.range 19).map (fun k => hslColor (k + 1)) ∧
    cssHueAngle (paramHueArg 19) = cssHueAngle (paramHueArg 1) ∧
    (19 : Nat) ≠ 1 := by decide

/-- C6 (amended): colour assignment is deterministic by discovery order — the
k-th discovered parameter always receives the rotation colour of step k+1 —
and the numeric hue arguments are strictly injective; as rendered hue angles
(degrees modulo 360) they are pairwise distinct only among the first 18
discovered parameters. -/
theorem C6_amended : ∀ (w : Workflow),
    ((discoveredParams w).map (fun p => p.color) =
      (List.range (discoveredParams w).length).map (fun k => hslColor (k + 1))) ∧
    (∀ m k : Nat, m ≠ k → paramHueArg m ≠ paramHueArg k) ∧
    (∀ m k : Nat, 1 ≤ m → m < k → k ≤ 18 →
      cssHueAngle (paramHueArg m) ≠ cssHueAngle (paramHueArg k)) := by
  intro w
  refine ⟨discoveredParams_colors w, ?_, ?_⟩
  · intro m k h
    unfold paramHueArg
    omega
  · intro m k h1 h2 h3
    unfold paramHueArg cssHueAngle
    omega

theorem C6_amended_witness :
    (discoveredParams exC6).map (fun p => p.color) =
      (List.range (discoveredParams exC6).length).map (fun k => hslColor (k + 1)) ∧
    paramHueArg 1 ≠ paramHueArg 2 ∧
    cssHueAngle (paramHueArg 1) ≠ cssHueAngle (paramHueArg 2) :=
  ⟨(C6_amended exC6).1, (C6_amended exC6).2.1 1 2 (by decide),
   (C6_amended exC6).2.2 1 2 (by decide) (by decide) (by decide)⟩

/-- C7: on a change event of the parameter form, for every parameter entry
of the pushed value set (which contains every parameter of the form, hence
every parameter of the change set), the sanitized new value — or the
parameter's own name when that value is empty — is pushed into every target
field recorded for that parameter. -/
theorem C7_theorem : ∀ (w : Workflow) (values : List (String × String))
    (fields : FieldRef → String) (cv : String × String) (r : FieldRef),
    (values.map Prod.fst).Nodup →
    (dollarRefs (normalizeSteps w.steps)).Nodup →
    cv ∈ values → r ∈ targetList w cv.1 →
    propagate (discoveredTargets w) values fields r =
      (if sanitize cv.2 = "" then cv.1 else sanitize cv.2) := by
  intro w values fields cv r hknd hrnd hcv hr
  exact propagate_target (discoveredTargets w) values fields cv r hknd hcv hr
    (fun c hc => targetList_disjoint w hrnd cv.1 c (fun hh => hc hh.symm) r hr)

theorem C7_theorem_witness :
    propagate (discoveredTargets exWP) [("olor", "")]
      (initialFields (normalizeSteps exWP.steps)) ⟨1, "a"⟩ =
      (if sanitize "" = "" then "olor" else sanitize "") :=
  C7_theorem exWP [("olor", "")]
    (initialFields (normalizeSteps exWP.steps)) ("olor", "") ⟨1, "a"⟩
    (by decide) (by decide) (by decide) (by decide)

/-- C8: the claim describes mapping each named field of the error payload
back to its owning form — but the error callback dereferences the unbound
identifier `form` (`form.data.matchResponse`) whenever `err_data` is present,
raising a ReferenceError before any highlighting, and likewise evaluates the
unbound `ToolTemplate`/`options` when no `err_msg` is present; only the
`err_msg` modal path behaves as described. -/
theorem C8_theorem :
    errorHandler (some [("werkzeug|input", "value required")]) none =
      ErrorHandlerResult.referenceError ∧
    errorHandler (some []) (some "failed") =
      ErrorHandlerResult.referenceError ∧
    errorHandler none (some "Job submission failed") =
      ErrorHandlerResult.modalNotice "Job submission failed" ∧
    errorHandler none none = ErrorHandlerResult.referenceError := by decide


/-- C9: every rejected submission attempt — a local validation failure, or a
backend/transport failure of a request that was actually sent — ends with the
execute control and every step form enabled again: the local-rejection path
calls the enable routine immediately (even when the missing history form
makes it raise midway, the button was already re-enabled and the step forms
were never disabled), and the request path re-enables everything in the
transport's `complete` callback. -/
theorem C9_theorem : ∀ (w : Workflow) (vals : FieldVals) (ui : UIState),
    ui.btnEnabled = true → (∀ k, ui.formsEnabled k = true) →
    (((execRun w vals).valid = false →
      ((executeUI (historyFormCreated w) (execRun w vals) ui).btnEnabled = true ∧
       ∀ k, (executeUI (historyFormCreated w)
         (execRun w vals) ui).formsEnabled k = true)) ∧
     (executeOutcome (historyFormCreated w) (execRun w vals) =
        ExecOutcome.requested →
      ((completeReenable (historyFormCreated w)
          (setEnabledRun (historyFormCreated w) false ui)).btnEnabled = true ∧
       ∀ k, (completeReenable (historyFormCreated w)
          (setEnabledRun (historyFormCreated w) false ui)).formsEnabled k =
            true))) := by
  intro w vals ui hbtn hforms
  constructor
  · intro hval
    unfold executeUI
    rw [hval]
    cases hh : historyFormCreated w
    · constructor
      · simp [setEnabledRun]
      · intro k
        simp only [setEnabledRun, Bool.false_eq_true, if_false]
        exact hforms k
    · constructor
      · simp [setEnabledRun]
      · intro k
        simp [setEnabledRun]
  · intro hout
    have hh : historyFormCreated w = true := by
      unfold executeOutcome at hout
      by_cases hv : (execRun w vals).valid
      · rw [if_pos hv] at hout
        by_cases hhist : historyFormCreated w
        · exact hhist
        · rw [if_neg hhist] at hout
          exact absurd hout (by simp)
      · rw [if_neg hv] at hout
        exact absurd hout (by simp)
    rw [hh]
    constructor
    · simp [completeReenable, setEnabledRun]
    · intro k
      simp [completeReenable, setEnabledRun]

theorem C9_theorem_witness :
    (executeUI (historyFormCreated exC4)
      (execRun exC4 (fun _ => FormValue.null)) uiAll).btnEnabled = true ∧
    (executeUI (historyFormCreated exC4)
      (execRun exC4 (fun _ => FormValue.null)) uiAll).formsEnabled 0 = true :=
  ⟨(((C9_theorem exC4 (fun _ => FormValue.null) uiAll rfl
      (fun _ => rfl)).1) (by decide)).1,
   (((C9_theorem exC4 (fun _ => FormValue.null) uiAll rfl
      (fun _ => rfl)).1) (by decide)).2 0⟩


/-- C10: a workflow descriptor with a (truthy) pre-selected `history_id`
never creates the history form, yet `_enabled` unconditionally dereferences
`this.history_form.portlet`, so every execute attempt on such a workflow —
whichever way validation goes — raises a TypeError: the run is marked
crashed, the step-form enable/disable loop never executes, and no request is
ever sent. -/
theorem C10_theorem : ∀ (w : Workflow) (vals : FieldVals) (ui : UIState),
    jsTruthy w.history_id = true →
    historyFormCreated w = false ∧
    (executeUI (historyFormCreated w) (execRun w vals) ui).crashed = true ∧
    (executeUI (historyFormCreated w) (execRun w vals) ui).formsEnabled =
      ui.formsEnabled ∧
    executeOutcome (historyFormCreated w) (execRun w vals) ≠
      ExecOutcome.requested := by
  intro w vals ui h
  have hh : historyFormCreated w = false := by
    unfold historyFormCreated
    rw [h]
    rfl
  refine ⟨hh, ?_, ?_, ?_⟩
  · unfold executeUI
    rw [hh]
    by_cases hv : (execRun w vals).valid <;>
      simp [hv, setEnabledRun]
  · unfold executeUI
    rw [hh]
    by_cases hv : (execRun w vals).valid <;>
      simp [hv, setEnabledRun]
  · unfold executeOutcome
    rw [hh]
    by_cases hv : (execRun w vals).valid <;> simp [hv]

theorem C10_theorem_witness :
    historyFormCreated exC10 = false ∧
    (executeUI (historyFormCreated exC10)
      (execRun exC10 (fun _ => FormValue.null)) uiAll).crashed = true ∧
    executeOutcome (historyFormCreated exC10)
      (execRun exC10 (fun _ => FormValue.null)) ≠ ExecOutcome.requested :=
  ⟨(C10_theorem exC10 (fun _ => FormValue.null) uiAll (by decide)).1,
   (C10_theorem exC10 (fun _ => FormValue.null) uiAll (by decide)).2.1,
   (C10_theorem exC10 (fun _ => FormValue.null) uiAll (by decide)).2.2.2⟩

end ToolFormComposite
